import Mathlib

/-!
The program `caf-generate-enum-strings`

A shallow embedding of `cmake/caf-generate-enum-strings.cpp` and proofs about
its line scanner and its code emitter.

Conventions of the embedding:

* `std::string` is `List Char` (`Str`); `std::vector<std::string>` is `List Str`.
* The input stream is the list of lines that successive `getline` calls return;
  `getlines` computes that list from the text of a file.
* `isspace` and `isalnum` are those of the "C" locale.
* Every way `main` can end is a value of `Except Failure _`: the four
  diagnostics of the scanner, and the outcomes C++ leaves to the run time
  (an unchecked access on an empty container, an uncaught `out_of_range`,
  a loop that does not finish).
-/

namespace EnumStrings

/-- The text of a `std::string`. -/
abbrev Str := List Char

/-- How a run can end without producing the output text. -/
inductive Failure where
  /-- Diagnostic "unable to locate enum in file" (source line 65). -/
  | headerNotFound
  /-- Diagnostic "enum found outside of a namespace" (source line 90). -/
  | noEnclosingNamespace
  /-- Diagnostic "empty enum name found" (source line 94). -/
  | emptyEnumName
  /-- Diagnostic "unable to read enum values" (source line 104). -/
  | truncatedBody
  /-- A call of `back()` or `operator[]` on an empty container. -/
  | uncheckedAccess
  /-- A call of `substr` with a position past the end of the string. -/
  | outOfRange
  /-- The loop of `split` did not finish. -/
  | nonTermination
  deriving DecidableEq, Repr

deriving instance DecidableEq for Except

/-- The diagnostic line written to the error stream, where there is one. -/
def Failure.message : Failure → Option String
  | .headerNotFound => some "unable to locate enum in file"
  | .noEnclosingNamespace => some "enum found outside of a namespace"
  | .emptyEnumName => some "empty enum name found"
  | .truncatedBody => some "unable to read enum values"
  | .uncheckedAccess => none
  | .outOfRange => none
  | .nonTermination => none

/-- The `isspace` of the "C" locale: space, `\t`, `\n`, `\v`, `\f`, `\r`. -/
def isspace (c : Char) : Bool :=
  c == ' ' || c == '\t' || c == '\n' || c == '\x0b' || c == '\x0c' || c == '\r'

/-- The `isalnum` of the "C" locale: a decimal digit or an ASCII letter. -/
def isalnum (c : Char) : Bool :=
  ('0' ≤ c && c ≤ '9') || ('A' ≤ c && c ≤ 'Z') || ('a' ≤ c && c ≤ 'z')

/-- Scan of `std::string::find` over the suffix that starts at index `i`. -/
def findFrom (separator : Str) : Str → Nat → Option Nat
  | [], i => if separator.isPrefixOf [] then some i else none
  | c :: cs, i =>
    if separator.isPrefixOf (c :: cs) then some i else findFrom separator cs (i + 1)

/-- The call `str.find(separator, pos)`: the least index `i ≥ pos` at which `separator`
occurs in `str`; `none` stands for `npos`. -/
def find (str separator : Str) (pos : Nat) : Option Nat :=
  if pos ≤ str.length then findFrom separator (str.drop pos) pos else none

/-- The call `str.substr(pos, count)`: it throws `out_of_range` when `pos > size()`, and
otherwise clamps `count` to what is left of the string. -/
def substr (str : Str) (pos count : Nat) : Except Failure Str :=
  if pos ≤ str.length then .ok ((str.drop pos).take count) else .error .outOfRange

/-- The `while` loop of `split` (source lines 17-22), with the number of
iterations it may still take. When `current` is `npos` the loop is left and
`substr(previous, npos - previous)` is the rest of the string from `previous`. -/
def splitLoop (str separator : Str) : Nat → Nat → Option Nat → List Str → Except Failure (List Str)
  | _, previous, none, dest =>
    if previous ≤ str.length then .ok (dest ++ [str.drop previous]) else .error .outOfRange
  | 0, _, some _, _ => .error .nonTermination
  | fuel + 1, previous, some current, dest =>
    match substr str previous (current - previous) with
    | .error e => .error e
    | .ok segment =>
      splitLoop str separator fuel (current + separator.length)
        (find str separator (current + separator.length)) (dest ++ [segment])

/-- Source lines 14-23. Every iteration but the last moves `previous` forward,
so `str.size() + 1` iterations are enough for a non-empty separator. -/
def split (str separator : Str) (dest : List Str) : Except Failure (List Str) :=
  splitLoop str separator (str.length + 1) 0 (find str separator 0) dest

/-- Source lines 25-29: erase the leading, then the trailing white space. -/
def trim (str : Str) : Str :=
  (str.dropWhile isspace).rdropWhile isspace

/-- Source lines 31-34: `str.compare(0, N - 1, prefix) == 0`. -/
def starts_with (str pre : Str) : Bool :=
  str.take pre.length == pre

/-- Source lines 36-40. -/
def  drop_prefix (str pre : Str) : Str :=
  if str.take pre.length == pre then str.drop pre.length else str

/-- The predicate `not_alnum` of `keep_alnum` (source line 43). -/
def not_alnum (c : Char) : Bool :=
  !(isalnum c) && c != '_'

/-- Source lines 42-45: erase from the first character that is neither
alphanumeric nor an underscore to the end of the string. -/
def keep_alnum (str : Str) : Str :=
  str.takeWhile (fun c => !(not_alnum c))

/-- The lines successive `getline` calls return on a stream holding `text`;
`current` is the part of the line read so far. A `getline` that meets the end
of the stream before any character fails, so a final line break opens no
further line. -/
def getlinesAux : Str → Str → List Str
  | [], current => if current.isEmpty then [] else [current]
  | c :: cs, current =>
    if c = '\n' then current :: getlinesAux cs [] else getlinesAux cs (current ++ [c])

/-- The whole input as `getline` delivers it. -/
def getlines (text : Str) : List Str :=
  getlinesAux text []

/-- What the first loop of `main` (source lines 63-87) leaves behind when it
finds the enum: the variables it has set and the lines not yet read. -/
structure Header where
  namespaces : List Str
  enum_name : Str
  is_enum_class : Bool
  rest : List Str
  deriving DecidableEq, Repr

/-- Source lines 81-85, for a trimmed line that starts with `namespace `:
drop a final opening brace, erase up to the first blank, trim, and split the
rest on `::` into `namespaces`. -/
def namespaceLine (line : Str) (namespaces : List Str) : Except Failure (List Str) :=
  match line.getLast? with
  | none => .error .uncheckedAccess
  | some c =>
    let line := if c = '\x7b' then line.dropLast else line
    let line := line.dropWhile (fun x => x != ' ')
    let line := trim line
    split line "::".toList namespaces

/-- Source lines 70-77, for a trimmed line that starts with `enum `: the
enum name and whether the keyword `class` follows. -/
def enumLine (line : Str) : Str × Bool :=
  let line :=  drop_prefix line "enum ".toList
  if starts_with line "class ".toList then
    (keep_alnum (trim ( drop_prefix line "class ".toList)), true)
  else
    (keep_alnum (trim line), false)

/-- Source lines 63-87: locate the beginning of the enum. -/
def locateEnum : List Str → List Str → Except Failure Header
  | [], _ => .error .headerNotFound
  | raw :: rest, namespaces =>
    let line := trim raw
    if starts_with line "enum ".toList then
      .ok ⟨namespaces, (enumLine line).1, (enumLine line).2, rest⟩
    else if starts_with line "namespace ".toList then
      match namespaceLine line namespaces with
      | .error e => .error e
      | .ok namespaces => locateEnum rest namespaces
    else
      locateEnum rest namespaces

/-- Source lines 102-116: read until hitting the closing brace. -/
def readValues : List Str → List Str → Except Failure (List Str)
  | [], _ => .error .truncatedBody
  | raw :: rest, enum_values =>
    let line := trim raw
    if line.isEmpty then
      readValues rest enum_values
    else
      match line.head? with
      | none => .error .uncheckedAccess
      | some c =>
        if c = '\x7d' then
          .ok enum_values
        else if c ≠ '/' then
          readValues rest (enum_values ++ [keep_alnum line])
        else
          readValues rest enum_values

/-- What the scanner hands to the emitter. -/
structure ScanResult where
  namespaces : List Str
  enum_name : Str
  is_enum_class : Bool
  enum_values : List Str
  deriving DecidableEq, Repr

/-- Source lines 97-99. -/
def  case_label_prefix (r : ScanResult) : Str :=
  if r.is_enum_class then r.enum_name ++ "::".toList else []

/-- Source lines 58-116: both loops of the scanner and the sanity checks
between them. -/
def scan (input : List Str) : Except Failure ScanResult :=
  match locateEnum input [] with
  | .error e => .error e
  | .ok h =>
    if h.namespaces.isEmpty then
      .error .noEnclosingNamespace
    else if h.enum_name.isEmpty then
      .error .emptyEnumName
    else
      match readValues h.rest [] with
      | .error e => .error e
      | .ok enum_values => .ok ⟨h.namespaces, h.enum_name, h.is_enum_class, enum_values⟩

/-- Source lines 141-149: the text of `to_string`, written to `out`. -/
def emit_to_string (r : ScanResult) (out : Str) : Str :=
  let out := out ++ "std::string to_string(".toList ++ r.enum_name ++ " x) \x7b\n".toList
    ++ "  switch(x) \x7b\n".toList
    ++ "    default:\n".toList
    ++ "      return \"???\";\n".toList
  let out := r.enum_values.foldl
    (fun out val => out ++ "    case ".toList ++  case_label_prefix r ++ val ++ ":\n".toList
      ++ "      return \"".toList ++ val ++ "\";\n".toList) out
  out ++ "  \x7d;\n".toList
    ++ "\x7d\n\n".toList

/-- Source lines 151-160: the text of `from_string`, written to `out`. -/
def emit_from_string (r : ScanResult) (out : Str) : Str :=
  let out := out ++ "bool from_string(string_view in, ".toList ++ r.enum_name
    ++ "& out) \x7b\n  ".toList
  let out := r.enum_values.foldl
    (fun out val => out ++ "if (in == \"".toList ++ val ++ "\") \x7b\n".toList
      ++ "    out = ".toList ++  case_label_prefix r ++ val ++ ";\n".toList
      ++ "    return true;\n".toList
      ++ "  \x7d else ".toList) out
  out ++ "\x7b\n".toList
    ++ "    return false;\n".toList
    ++ "  \x7d\n".toList
    ++ "\x7d\n\n".toList

/-- Source lines 162-173: the text of `from_integer`, written to `out`. -/
def emit_from_integer (r : ScanResult) (out : Str) : Str :=
  let out := out ++ "bool from_integer(std::underlying_type_t<".toList ++ r.enum_name
    ++ "> in,\n".toList
    ++ "                  ".toList ++ r.enum_name ++ "& out) \x7b\n".toList
    ++ "  auto result = static_cast<".toList ++ r.enum_name ++ ">(in);\n".toList
    ++ "  switch(result) \x7b\n".toList
    ++ "    default:\n".toList
    ++ "      return false;\n".toList
  let out := r.enum_values.foldl
    (fun out val => out ++ "  case ".toList ++  case_label_prefix r ++ val ++ ":\n".toList) out
  out ++ "      out = result;\n".toList
    ++ "      return true;\n".toList
    ++ "  \x7d;\n".toList
    ++ "\x7d\n\n".toList

/-- Source lines 124-177: the text written to the output file. `namespaces[0]`
is read without a check; the loops over `namespaces[i]` start at `i = 1`. -/
def emit (r : ScanResult) : Except Failure Str :=
  match r.namespaces with
  | [] => .error .uncheckedAccess
  | first :: others =>
    let out : Str := "// clang-format off\n".toList
      ++ "// DO NOT EDIT: this file is auto-generated by caf-generate-enum-strings.\n".toList
      ++ "// Run the target update-enum-strings if this file is out of sync.\n".toList
      ++ "#include \"caf/config.hpp\"\n".toList
      ++ "#include \"caf/string_view.hpp\"\n\n".toList
      ++ "CAF_PUSH_DEPRECATED_WARNING\n\n".toList
      ++ "#include \"".toList ++ first
    let out := others.foldl (fun out n => out ++ ['/'] ++ n) out
    let out := out ++ ['/'] ++ r.enum_name ++ ".hpp\"\n\n".toList
      ++ "#include <string>\n\n".toList
      ++ "namespace ".toList ++ first ++ " \x7b\n".toList
    let out := others.foldl (fun out n => out ++ "namespace ".toList ++ n ++ " \x7b\n".toList) out
    let out := out ++ ['\n']
    let out := emit_to_string r out
    let out := emit_from_string r out
    let out := emit_from_integer r out
    let out := r.namespaces.reverse.foldl
      (fun out n => out ++ "\x7d // namespace ".toList ++ n ++ ['\n']) out
    .ok (out ++ "\nCAF_POP_WARNINGS\n".toList)

/-- Source lines 58-178 of `main`, once both files are open: scan the input,
and only when the scan succeeds write the output text. -/
def main (input : List Str) : Except Failure Str :=
  match scan input with
  | .error e => .error e
  | .ok r => emit r

/-- A `case` branch of a generated `switch`: its label and the string literal
it returns. -/
structure CaseBranch where
  label : Str
  literal : Str
  deriving DecidableEq, Repr

/-- The text of a `case` branch of `to_string`. -/
def CaseBranch.render (b : CaseBranch) : Str :=
  "    case ".toList ++ b.label ++ ":\n".toList
    ++ "      return \"".toList ++ b.literal ++ "\";\n".toList

/-- A test of the generated `from_string`: the literal `in` is compared with
and the constant assigned to `out`. -/
structure IfTest where
  literal : Str
  constant : Str
  deriving DecidableEq, Repr

/-- The text of one test of the chain, up to its `else`. -/
def IfTest.render (t : IfTest) : Str :=
  "if (in == \"".toList ++ t.literal ++ "\") \x7b\n".toList
    ++ "    out = ".toList ++ t.constant ++ ";\n".toList
    ++ "    return true;\n".toList
    ++ "  \x7d else ".toList

/-- The text of a chain of tests, closed by the final `else` block. -/
def renderChain : List IfTest → Str
  | [] =>
    "\x7b\n".toList
      ++ "    return false;\n".toList
      ++ "  \x7d\n".toList
  | t :: ts => t.render ++ renderChain ts

/-- A chain of tests read as a function: the constant of the first test whose
literal equals the input, and failure when no test matches. -/
def evalChain : List IfTest → Str → Option Str
  | [], _ => none
  | t :: ts, s => if s = t.literal then some t.constant else evalChain ts s

/-- An alphanumeric or underscore character. -/
def isWordChar (c : Char) : Bool :=
  isalnum c || c == '_'

/-- A non-empty string of alphanumeric or underscore characters. -/
def IsIdent (s : Str) : Prop :=
  s ≠ [] ∧ ∀ c ∈ s, isWordChar c = true

instance : DecidablePred IsIdent := fun s =>
  inferInstanceAs (Decidable (s ≠ [] ∧ ∀ c ∈ s, isWordChar c = true))

/-- The first character of a line that is not white space, if there is one. -/
def firstNonSpace (line : Str) : Option Char :=
  (line.dropWhile isspace).head?

/-- The member a body line adds to `enum_values` when the second loop reads
it: none when the line is blank or its first character that is not white
space is `/`, and else the filtered trimmed line. -/
def memberOf (raw : Str) : Option Str :=
  match firstNonSpace raw with
  | none => none
  | some c => if c = '/' then none else some (keep_alnum (trim raw))

/-- A line of the documented enum body, with the member it declares: a blank
line, a comment line, or `IDENT`, `IDENT,`, `IDENT = EXPR`, `IDENT = EXPR,`. -/
def BodyLine (raw : Str) (member : Option Str) : Prop :=
  (trim raw = [] ∧ member = none) ∨
  ((trim raw).head? = some '/' ∧ member = none) ∨
  (∃ ident expr, IsIdent ident ∧ member = some ident ∧
    (trim raw = ident ∨ trim raw = ident ++ ",".toList ∨
      trim raw = ident ++ " = ".toList ++ expr ∨
      trim raw = ident ++ " = ".toList ++ expr ++ ",".toList))

/-- The text of a `case` label of the generated `from_integer`. -/
def renderLabel (label : Str) : Str :=
  "  case ".toList ++ label ++ ":\n".toList

/-- The line that opens the block of a namespace. -/
def openLine (segment : Str) : Str :=
  "namespace ".toList ++ segment ++ " \x7b\n".toList

/-- The line that closes the block of a namespace. -/
def closeLine (segment : Str) : Str :=
  "\x7d // namespace ".toList ++ segment ++ ['\n']

/-- The name of a member as the generated code refers to it: qualified with
the enum name for an `enum class`, bare otherwise. -/
def qualified (r : ScanResult) (member : Str) : Str :=
  if r.is_enum_class then r.enum_name ++ "::".toList ++ member else member

/-! ## Characters -/

theorem not_not_alnum (c : Char) : (!(not_alnum c)) = isWordChar c := by
  cases h : isalnum c <;> cases h2 : (c == '_') <;> simp [not_alnum, isWordChar, h, h2, bne]

theorem keep_alnum_eq (s : Str) : keep_alnum s = s.takeWhile isWordChar := by
  unfold keep_alnum
  congr 1
  funext c
  exact not_not_alnum c

theorem isWordChar_not_space {c : Char} (h : isWordChar c = true) : isspace c = false := by
  cases hs : isspace c with
  | false => rfl
  | true =>
    exfalso
    simp only [isspace, Bool.or_eq_true, beq_iff_eq] at hs
    rcases hs with ((((hs | hs) | hs) | hs) | hs) | hs <;> subst hs <;> revert h <;> decide

theorem isWordChar_ne {c d : Char} (h : isWordChar c = true) (hd : isWordChar d = false) :
    c ≠ d := by
  intro hcd
  subst hcd
  rw [h] at hd
  exact Bool.noConfusion hd

/-! ## `trim` -/

theorem rdropWhile_append_of_last {p : Char → Bool} (a b : Str) (ha : a ≠ [])
    (hlast : p (a.getLast ha) = false) :
    (a ++ b).rdropWhile p = a ++ b.rdropWhile p := by
  induction b using List.reverseRecOn with
  | nil =>
    simp only [List.append_nil, List.rdropWhile_nil]
    rw [List.rdropWhile_eq_self_iff]
    intro hl
    simp [hlast]
  | append_singleton b x ih =>
    by_cases hx : p x = true
    · rw [← List.append_assoc, List.rdropWhile_concat_pos _ _ _ hx,
        List.rdropWhile_concat_pos _ _ _ hx, ih]
    · rw [← List.append_assoc, List.rdropWhile_concat_neg _ _ _ hx,
        List.rdropWhile_concat_neg _ _ _ hx, List.append_assoc]

theorem trim_eq_of_head {c : Char} {s : Str} (h : isspace c = false) :
    trim (c :: s) = (c :: s).rdropWhile isspace := by
  simp [trim, h]

theorem trim_prefix_dropWhile (s : Str) : trim s <+: s.dropWhile isspace :=
  List.rdropWhile_prefix _ _

theorem head?_rdropWhile {p : Char → Bool} (s : Str) (c : Char) (hc : p c = false) :
    ((c :: s).rdropWhile p).head? = some c := by
  have := rdropWhile_append_of_last (p := p) [c] s (by simp) (by simpa using hc)
  simp only [List.singleton_append] at this
  rw [this]
  rfl

/-- The first character of the trimmed line is the first character of the
line that is not white space. -/
theorem head?_trim (s : Str) : (trim s).head? = firstNonSpace s := by
  unfold trim firstNonSpace
  cases h : s.dropWhile isspace with
  | nil => simp
  | cons c t =>
    have hc : isspace c = false := by
      have := List.dropWhile_get_zero_not isspace s (by simp [h])
      simpa [h] using this
    exact head?_rdropWhile t c hc

theorem trim_eq_nil_iff (s : Str) : trim s = [] ↔ firstNonSpace s = none := by
  rw [← head?_trim]
  cases trim s <;> simp

/-- An identifier followed by a tail is trimmed to the identifier followed
by a prefix of the tail. -/
theorem trim_ident_append {ident : Str} (hid : IsIdent ident) (tail : Str) :
    trim (ident ++ tail) = ident ++ tail.rdropWhile isspace := by
  obtain ⟨hne, hall⟩ := hid
  have hlast : isspace (ident.getLast hne) = false :=
    isWordChar_not_space (hall _ (List.getLast_mem hne))
  cases hi : ident with
  | nil => exact absurd hi hne
  | cons c t =>
    have hc : isspace c = false := isWordChar_not_space (hall c (by simp [hi]))
    rw [List.cons_append, trim_eq_of_head hc, ← List.cons_append]
    subst hi
    exact rdropWhile_append_of_last _ _ hne hlast

/-! ## `starts_with` and `drop_prefix` -/

theorem starts_with_iff (s pre : Str) : starts_with s pre = true ↔ pre <+: s := by
  unfold starts_with
  rw [beq_iff_eq, List.prefix_iff_eq_take]
  exact eq_comm

theorem starts_with_eq_false_iff (s pre : Str) : starts_with s pre = false ↔ ¬ pre <+: s := by
  rw [← starts_with_iff]
  simp

theorem starts_with_append (pre s : Str) : starts_with (pre ++ s) pre = true := by
  rw [starts_with_iff]
  exact List.prefix_append pre s

theorem drop_prefix_append (pre s : Str) :  drop_prefix (pre ++ s) pre = s := by
  simp [ drop_prefix]

/-! ## `find` and `split` -/

theorem findFrom_bounds (sep : Str) :
    ∀ (s : Str) (i j : Nat), findFrom sep s i = some j → i ≤ j ∧ j + sep.length ≤ i + s.length := by
  intro s
  induction s with
  | nil =>
    intro i j h
    unfold findFrom at h
    split at h
    · rename_i hp
      have : sep = [] := by
        cases sep with
        | nil => rfl
        | cons a t => simp at hp
      simp only [Option.some.injEq] at h
      subst h this
      simp
    · exact Option.noConfusion h
  | cons c cs ih =>
    intro i j h
    unfold findFrom at h
    split at h
    · rename_i hp
      simp only [Option.some.injEq] at h
      subst h
      have hle := (List.isPrefixOf_iff_prefix.1 hp).length_le
      exact ⟨Nat.le_refl _, Nat.add_le_add_left hle _⟩
    · obtain ⟨h1, h2⟩ := ih (i + 1) j h
      simp only [List.length_cons]
      omega

theorem find_bounds {str sep : Str} {pos j : Nat} (h : find str sep pos = some j) :
    pos ≤ j ∧ j + sep.length ≤ str.length := by
  unfold find at h
  split at h
  · rename_i hpos
    obtain ⟨h1, h2⟩ := findFrom_bounds sep _ _ _ h
    simp only [List.length_drop] at h2
    omega
  · exact Option.noConfusion h

/-- With a non-empty separator the loop of `split` ends within
`str.size() + 1 - previous` iterations, and appends at least one segment. -/
theorem splitLoop_ok (str sep : Str) (hsep : sep ≠ []) :
    ∀ (fuel previous : Nat) (dest : List Str), previous ≤ str.length →
      str.length < fuel + previous →
      ∃ segs, segs ≠ [] ∧
        splitLoop str sep fuel previous (find str sep previous) dest = .ok (dest ++ segs) := by
  have hlen : 0 < sep.length := List.length_pos.2 hsep
  intro fuel
  induction fuel with
  | zero =>
    intro previous dest hp hf
    omega
  | succ fuel ih =>
    intro previous dest hp hf
    cases hfind : find str sep previous with
    | none =>
      refine ⟨[str.drop previous], by simp, ?_⟩
      simp [splitLoop, hp]
    | some current =>
      obtain ⟨h1, h2⟩ := find_bounds hfind
      obtain ⟨segs, hne, hsegs⟩ :=
        ih (current + sep.length) (dest ++ [(str.drop previous).take (current - previous)])
          h2 (by omega)
      refine ⟨(str.drop previous).take (current - previous) :: segs, by simp, ?_⟩
      simp only [splitLoop, substr, hp, if_true]
      rw [hsegs]
      simp

theorem split_ok (str sep : Str) (hsep : sep ≠ []) (dest : List Str) :
    ∃ segs, segs ≠ [] ∧ split str sep dest = .ok (dest ++ segs) :=
  splitLoop_ok str sep hsep (str.length + 1) 0 dest (Nat.zero_le _) (by omega)

theorem find_append_left (pre s sep : Str) :
    find (pre ++ s) sep pre.length = findFrom sep s pre.length := by
  simp [find]

theorem findFrom_colons_none :
    ∀ (s : Str) (i : Nat), ':' ∉ s → findFrom [':', ':'] s i = none := by
  intro s
  induction s with
  | nil => intro i _; rfl
  | cons c cs ih =>
    intro i h
    have hc : c ≠ ':' := fun hc => h (by simp [hc])
    have hcs : ':' ∉ cs := fun hm => h (List.mem_cons_of_mem _ hm)
    unfold findFrom
    rw [if_neg, ih (i + 1) hcs]
    simp [List.isPrefixOf, Ne.symm hc]

theorem findFrom_colons_some :
    ∀ (a t : Str) (i : Nat), ':' ∉ a →
      findFrom [':', ':'] (a ++ [':', ':'] ++ t) i = some (i + a.length) := by
  intro a
  induction a with
  | nil =>
    intro t i _
    simp [findFrom, List.isPrefixOf]
  | cons c cs ih =>
    intro t i h
    have hc : c ≠ ':' := fun hc => h (by simp [hc])
    have hcs : ':' ∉ cs := fun hm => h (List.mem_cons_of_mem _ hm)
    simp only [List.cons_append]
    unfold findFrom
    rw [if_neg, ih t (i + 1) hcs]
    · simp only [List.length_cons]
      congr 1
      omega
    · simp [List.isPrefixOf, Ne.symm hc]

theorem intercalate_cons_cons (sep a b : Str) (l : List Str) :
    sep.intercalate (a :: b :: l) = a ++ sep ++ sep.intercalate (b :: l) := by
  simp [List.intercalate, List.intersperse]

/-- On segments free of `:` joined by `::`, the loop of `split` appends the
segments, one per iteration. -/
theorem splitLoop_idents :
    ∀ (rest : List Str) (pre a : Str) (fuel : Nat) (dest : List Str),
      ':' ∉ a → (∀ b ∈ rest, ':' ∉ b) → rest.length ≤ fuel →
      splitLoop (pre ++ [':', ':'].intercalate (a :: rest)) [':', ':'] fuel pre.length
        (find (pre ++ [':', ':'].intercalate (a :: rest)) [':', ':'] pre.length) dest
        = .ok (dest ++ a :: rest) := by
  intro rest
  induction rest with
  | nil =>
    intro pre a fuel dest ha _ _
    have hj : [':', ':'].intercalate [a] = a := by simp [List.intercalate]
    rw [hj, find_append_left, findFrom_colons_none a _ ha]
    simp [splitLoop]
  | cons b rest ih =>
    intro pre a fuel dest ha hrest hfuel
    cases fuel with
    | zero => simp at hfuel
    | succ fuel =>
      have hb : ':' ∉ b := hrest b (by simp)
      have hrest2 : ∀ x ∈ rest, ':' ∉ x := fun x hx => hrest x (List.mem_cons_of_mem _ hx)
      rw [intercalate_cons_cons, find_append_left, findFrom_colons_some a _ _ ha]
      have hsub : substr (pre ++ (a ++ [':', ':'] ++ [':', ':'].intercalate (b :: rest)))
          pre.length (pre.length + a.length - pre.length) = .ok a := by
        simp [substr]
      simp only [splitLoop, hsub]
      have hpre : pre.length + a.length + [':', ':'].length = (pre ++ a ++ [':', ':']).length := by
        simp only [List.length_append, List.length_cons, List.length_nil]
      have hstr : pre ++ (a ++ [':', ':'] ++ [':', ':'].intercalate (b :: rest))
          = (pre ++ a ++ [':', ':']) ++ [':', ':'].intercalate (b :: rest) := by
        simp
      rw [hpre, hstr, ih (pre ++ a ++ [':', ':']) b fuel (dest ++ [a]) hb hrest2
        (by simpa using hfuel)]
      simp

theorem length_le_intercalate (a : Str) (rest : List Str) :
    rest.length ≤ ([':', ':'].intercalate (a :: rest)).length := by
  induction rest generalizing a with
  | nil => simp
  | cons b rest ih =>
    rw [intercalate_cons_cons]
    have := ih b
    simp only [List.length_append, List.length_cons, List.length_nil] at this ⊢
    omega

/-- The namespace call of `split`: segments free of `:` joined by `::` are
appended as they are. -/
theorem split_idents (a : Str) (rest : List Str) (dest : List Str)
    (ha : ':' ∉ a) (hrest : ∀ b ∈ rest, ':' ∉ b) :
    split ([':', ':'].intercalate (a :: rest)) "::".toList dest = .ok (dest ++ a :: rest) := by
  have h := splitLoop_idents rest [] a (([':', ':'].intercalate (a :: rest)).length + 1) dest
    ha hrest (Nat.le_succ_of_le (length_le_intercalate a rest))
  simpa [split] using h

/-! ## Namespace lines -/

theorem trim_append_of_ends (s tail : Str) (hne : s ≠ [])
    (hhead : ∀ c ∈ s.head?, isspace c = false) (hlast : ∀ d ∈ s.getLast?, isspace d = false) :
    trim (s ++ tail) = s ++ tail.rdropWhile isspace := by
  cases s with
  | nil => exact absurd rfl hne
  | cons c t =>
    have hc : isspace c = false := hhead c (by simp)
    rw [List.cons_append, trim_eq_of_head hc, ← List.cons_append]
    exact rdropWhile_append_of_last _ _ hne (hlast _ (List.getLast?_eq_getLast _ hne))

theorem rdropWhile_all {p : Char → Bool} (ws : Str) (h : ∀ c ∈ ws, p c = true) :
    ws.rdropWhile p = [] :=
  List.rdropWhile_eq_nil_iff.2 h

theorem trim_cons_space {c : Char} (s : Str) (h : isspace c = true) : trim (c :: s) = trim s := by
  simp [trim, h]

theorem not_mem_of_isWordChar {s : Str} {d : Char} (hs : ∀ c ∈ s, isWordChar c = true)
    (hd : isWordChar d = false) : d ∉ s :=
  fun hm => isWordChar_ne (hs d hm) hd rfl

/-- Identifiers joined by `::` start and end with a word character. -/
theorem intercalate_idents_ends :
    ∀ (rest : List Str) (a : Str), IsIdent a → (∀ b ∈ rest, IsIdent b) →
      "::".toList.intercalate (a :: rest) ≠ [] ∧
        (∀ c ∈ ("::".toList.intercalate (a :: rest)).head?, isWordChar c = true) ∧
        (∀ d ∈ ("::".toList.intercalate (a :: rest)).getLast?, isWordChar d = true) := by
  intro rest
  induction rest with
  | nil =>
    intro a ha _
    have hj : "::".toList.intercalate [a] = a := by simp [List.intercalate]
    rw [hj]
    exact ⟨ha.1, fun c hc => ha.2 c (List.mem_of_mem_head? hc),
      fun d hd => ha.2 d (List.mem_of_mem_getLast? hd)⟩
  | cons b rest ih =>
    intro a ha hrest
    obtain ⟨hne, _, hlast⟩ := ih b (hrest b (by simp))
      (fun x hx => hrest x (List.mem_cons_of_mem _ hx))
    rw [intercalate_cons_cons]
    refine ⟨by simp [ha.1], ?_, ?_⟩
    · intro c hc
      cases a with
      | nil => exact absurd rfl ha.1
      | cons x t =>
        simp only [List.cons_append, List.head?_cons, Option.mem_def, Option.some.injEq] at hc
        subst hc
        exact ha.2 _ (by simp)
    · rw [List.getLast?_append_of_ne_nil _ hne]
      exact hlast

/-- Source lines 81-85 on `namespace I1::...::Ik`, with or without white
space and a final opening brace: the identifiers are appended. -/
theorem namespaceLine_idents (ids : List Str) (ws : Str) (line : Str) (namespaces : List Str)
    (hk : ids ≠ []) (hids : ∀ i ∈ ids, IsIdent i) (hws : ∀ c ∈ ws, isspace c = true)
    (hline : line = "namespace ".toList ++ "::".toList.intercalate ids ∨
      line = "namespace ".toList ++ "::".toList.intercalate ids ++ ws ++ "\x7b".toList) :
    namespaceLine line namespaces = .ok (namespaces ++ ids) := by
  cases ids with
  | nil => exact absurd rfl hk
  | cons a rest =>
    have ha : IsIdent a := hids a (by simp)
    have hrest : ∀ b ∈ rest, IsIdent b := fun b hb => hids b (List.mem_cons_of_mem _ hb)
    have hcolon : isWordChar ':' = false := by decide
    have hbrace : isWordChar '\x7b' = false := by decide
    obtain ⟨hne, hhead, hlast⟩ := intercalate_idents_ends rest a ha hrest
    have hsplit : split ("::".toList.intercalate (a :: rest)) "::".toList namespaces
        = .ok (namespaces ++ a :: rest) :=
      split_idents a rest namespaces (not_mem_of_isWordChar ha.2 hcolon)
        (fun b hb => not_mem_of_isWordChar (hrest b hb).2 hcolon)
    generalize "::".toList.intercalate (a :: rest) = J at *
    have htrim : ∀ tail : Str, (∀ c ∈ tail, isspace c = true) →
        trim (' ' :: (J ++ tail)) = J := by
      intro tail htail
      rw [trim_cons_space _ (by decide), trim_append_of_ends J tail hne
        (fun c hc => isWordChar_not_space (hhead c hc))
        (fun d hd => isWordChar_not_space (hlast d hd)),
        rdropWhile_all tail htail, List.append_nil]
    have hdrop : ∀ X : Str, ("namespace ".toList ++ X).dropWhile (fun x => x != ' ')
        = ' ' :: X := fun X => rfl
    rcases hline with h | h
    · subst h
      obtain ⟨d, hd⟩ : ∃ d, J.getLast? = some d :=
        ⟨J.getLast hne, List.getLast?_eq_getLast _ hne⟩
      have hl : ("namespace ".toList ++ J).getLast? = some d := by
        rw [List.getLast?_append_of_ne_nil _ hne, hd]
      have hneq : d ≠ '\x7b' := isWordChar_ne (hlast d hd) hbrace
      simp only [namespaceLine, hl, if_neg hneq, hdrop]
      have := htrim [] (by simp)
      rw [List.append_nil] at this
      rw [this]
      exact hsplit
    · subst h
      have hl : ("namespace ".toList ++ J ++ ws ++ "\x7b".toList).getLast? = some '\x7b' := by
        change ("namespace ".toList ++ J ++ ws ++ ['\x7b']).getLast? = some '\x7b'
        exact List.getLast?_concat _
      have hd : ("namespace ".toList ++ J ++ ws ++ "\x7b".toList).dropLast
          = "namespace ".toList ++ (J ++ ws) := by
        change ("namespace ".toList ++ J ++ ws ++ ['\x7b']).dropLast = _
        rw [List.dropLast_concat, List.append_assoc]
      simp only [namespaceLine, hl, if_true, hd, hdrop]
      rw [htrim ws hws]
      exact hsplit

/-- Source lines 81-85 never fail on a line that starts with `namespace `,
and append at least one segment. -/
theorem namespaceLine_ok (line : Str) (namespaces : List Str)
    (h : "namespace ".toList <+: line) :
    ∃ segs, segs ≠ [] ∧ namespaceLine line namespaces = .ok (namespaces ++ segs) := by
  obtain ⟨t, rfl⟩ := h
  obtain ⟨d, hd⟩ : ∃ d, ("namespace ".toList ++ t).getLast? = some d :=
    ⟨_, List.getLast?_eq_getLast _ (by simp)⟩
  simp only [namespaceLine, hd]
  exact split_ok _ _ (by decide) _

/-! ## The first loop of the scanner -/

theorem locateEnum_enum (raw : Str) (rest namespaces : List Str)
    (h : "enum ".toList <+: trim raw) :
    locateEnum (raw :: rest) namespaces
      = .ok ⟨namespaces, (enumLine (trim raw)).1, (enumLine (trim raw)).2, rest⟩ := by
  simp only [locateEnum, (starts_with_iff _ _).2 h, if_true]

theorem locateEnum_namespace (raw : Str) (rest namespaces segs : List Str)
    (h : "namespace ".toList <+: trim raw)
    (hs : namespaceLine (trim raw) namespaces = .ok (namespaces ++ segs)) :
    locateEnum (raw :: rest) namespaces = locateEnum rest (namespaces ++ segs) := by
  have he : starts_with (trim raw) "enum ".toList = false := by
    obtain ⟨t, ht⟩ := h
    rw [← ht]
    rfl
  simp only [locateEnum, he, (starts_with_iff _ _).2 h, if_true, hs]
  simp

theorem locateEnum_other (raw : Str) (rest namespaces : List Str)
    (he : ¬ "enum ".toList <+: trim raw) (hn : ¬ "namespace ".toList <+: trim raw) :
    locateEnum (raw :: rest) namespaces = locateEnum rest namespaces := by
  simp only [locateEnum, (starts_with_eq_false_iff _ _).2 he, (starts_with_eq_false_iff _ _).2 hn]
  simp

/-- Lines before the first enum line only add namespace segments, and add
none exactly when none of them is a namespace line. -/
theorem locateEnum_append (pre : List Str) (hpre : ∀ x ∈ pre, ¬ "enum ".toList <+: trim x) :
    ∀ (tail namespaces : List Str), ∃ segs,
      locateEnum (pre ++ tail) namespaces = locateEnum tail (namespaces ++ segs) ∧
      (segs = [] ↔ ∀ x ∈ pre, ¬ "namespace ".toList <+: trim x) := by
  induction pre with
  | nil =>
    intro tail namespaces
    exact ⟨[], by simp, by simp⟩
  | cons x pre ih =>
    intro tail namespaces
    have hx := hpre x (by simp)
    have ih := ih (fun y hy => hpre y (List.mem_cons_of_mem _ hy))
    by_cases hn : "namespace ".toList <+: trim x
    · obtain ⟨segs1, hne, h1⟩ := namespaceLine_ok (trim x) namespaces hn
      obtain ⟨segs2, h2, _⟩ := ih tail (namespaces ++ segs1)
      refine ⟨segs1 ++ segs2, ?_, ?_⟩
      · rw [List.cons_append, locateEnum_namespace x _ namespaces segs1 hn h1, h2,
          List.append_assoc]
      · constructor
        · intro h
          exact absurd (List.append_eq_nil.1 h).1 hne
        · intro h
          exact absurd hn (h x (by simp))
    · obtain ⟨segs, h2, h3⟩ := ih tail namespaces
      refine ⟨segs, ?_, ?_⟩
      · rw [List.cons_append, locateEnum_other x _ namespaces hx hn, h2]
      · rw [h3]
        constructor
        · intro h y hy
          rcases List.mem_cons.1 hy with rfl | hy
          · exact hn
          · exact h y hy
        · intro h y hy
          exact h y (List.mem_cons_of_mem _ hy)

/-! ## Enum header lines -/

/-- The filter keeps an identifier and drops what follows it, when what
follows is empty or starts with a character that is not a word character. -/
theorem keep_alnum_trim_ident (ident tail : Str) (hid : IsIdent ident)
    (htail : ∀ c ∈ tail.head?, isWordChar c = false) :
    keep_alnum (trim (ident ++ tail)) = ident := by
  rw [trim_ident_append hid, keep_alnum_eq, List.takeWhile_append_of_pos hid.2]
  have hp : tail.rdropWhile isspace <+: tail := List.rdropWhile_prefix _ _
  cases ht : tail.rdropWhile isspace with
  | nil => simp
  | cons c t =>
    rw [ht] at hp
    obtain ⟨r, hr⟩ := hp
    have hc : isWordChar c = false := htail c (by simp [← hr])
    simp [hc]

theorem class_not_leading (ident tail : Str) (hid : IsIdent ident)
    (htail : tail = [] ∨ ∃ t, tail = ' ' :: t) (hkw : ident = "class".toList → tail = []) :
    ¬ "class ".toList <+: ident ++ tail := by
  have hsp : ∀ c ∈ ident, c ≠ ' ' := fun c hc => isWordChar_ne (hid.2 c hc) (by decide)
  rintro ⟨r, hr⟩
  change ['c', 'l', 'a', 's', 's', ' '] ++ r = ident ++ tail at hr
  rcases htail with rfl | ⟨t, rfl⟩
  · have : ' ' ∈ ident := by
      rw [List.append_nil] at hr
      rw [← hr]
      simp
    exact hsp _ this rfl
  · rcases ident with _ | ⟨c1, _ | ⟨c2, _ | ⟨c3, _ | ⟨c4, _ | ⟨c5, _ | ⟨c6, more⟩⟩⟩⟩⟩⟩
    · exact hid.1 rfl
    · simp at hr
    · simp at hr
    · simp at hr
    · simp at hr
    · simp only [List.cons_append, List.nil_append, List.cons.injEq] at hr
      obtain ⟨h1, h2, h3, h4, h5, _⟩ := hr
      subst h1 h2 h3 h4 h5
      exact List.cons_ne_nil _ _ (hkw rfl)
    · simp only [List.cons_append, List.cons.injEq] at hr
      exact hsp c6 (by simp) hr.2.2.2.2.2.1.symm

/-- Source lines 70-77 on `enum class IDENT` and what may follow it. -/
theorem enumLine_class (ident tail : Str) (hid : IsIdent ident)
    (htail : ∀ c ∈ tail.head?, isWordChar c = false) :
    enumLine ("enum class ".toList ++ ident ++ tail) = (ident, true) := by
  have h1 :  drop_prefix ("enum class ".toList ++ ident ++ tail) "enum ".toList
      = "class ".toList ++ (ident ++ tail) := by
    rw [List.append_assoc]
    rfl
  simp only [enumLine, h1, starts_with_append, if_true,  drop_prefix_append,
    keep_alnum_trim_ident ident tail hid htail]

/-- Source lines 70-77 on `enum IDENT` and what may follow it. -/
theorem enumLine_plain (ident tail : Str) (hid : IsIdent ident)
    (htail : tail = [] ∨ ∃ t, tail = ' ' :: t) (hkw : ident = "class".toList → tail = []) :
    enumLine ("enum ".toList ++ ident ++ tail) = (ident, false) := by
  have h1 :  drop_prefix ("enum ".toList ++ ident ++ tail) "enum ".toList = ident ++ tail := by
    rw [List.append_assoc]
    exact  drop_prefix_append _ _
  have h2 : starts_with (ident ++ tail) "class ".toList = false :=
    (starts_with_eq_false_iff _ _).2 (class_not_leading ident tail hid htail hkw)
  have h3 : ∀ c ∈ tail.head?, isWordChar c = false := by
    rcases htail with rfl | ⟨t, rfl⟩
    · simp
    · intro c hc
      simp only [List.head?_cons, Option.mem_def, Option.some.injEq] at hc
      subst hc
      decide
  simp only [enumLine, h1, h2, keep_alnum_trim_ident ident tail hid h3]
  simp

/-- What may follow the name on an enum header line: nothing, ` {`,
` : TYPE` or ` : TYPE {`. Each of them is empty or starts with a blank. -/
theorem header_tail_cases (ty tail : Str)
    (htail : tail ∈ [[], " \x7b".toList, " : ".toList ++ ty, " : ".toList ++ ty ++ " \x7b".toList]) :
    tail = [] ∨ ∃ t, tail = ' ' :: t := by
  simp only [List.mem_cons, List.mem_singleton, List.not_mem_nil, or_false] at htail
  rcases htail with h | h | h | h
  · exact Or.inl h
  · exact Or.inr ⟨_, h⟩
  · exact Or.inr ⟨_, h⟩
  · exact Or.inr ⟨[':', ' '] ++ ty ++ " \x7b".toList, h⟩

/-! ## The second loop of the scanner -/

theorem exists_first {α : Type} (P : α → Prop) [DecidablePred P] :
    ∀ (l : List α), (∃ x ∈ l, P x) →
      ∃ pre x post, l = pre ++ x :: post ∧ (∀ y ∈ pre, ¬ P y) ∧ P x := by
  intro l
  induction l with
  | nil => rintro ⟨x, hx, _⟩; simp at hx
  | cons a l ih =>
    intro h
    by_cases ha : P a
    · exact ⟨[], a, l, rfl, by simp, ha⟩
    · obtain ⟨x, hx, hp⟩ := h
      rcases List.mem_cons.1 hx with rfl | hx
      · exact absurd hp ha
      · obtain ⟨pre, y, post, rfl, h1, h2⟩ := ih ⟨x, hx, hp⟩
        refine ⟨a :: pre, y, post, rfl, ?_, h2⟩
        intro z hz
        rcases List.mem_cons.1 hz with rfl | hz
        · exact ha
        · exact h1 z hz

theorem readValues_blank (raw : Str) (rest acc : List Str) (h : firstNonSpace raw = none) :
    readValues (raw :: rest) acc = readValues rest acc := by
  have ht : trim raw = [] := (trim_eq_nil_iff raw).2 h
  simp [readValues, ht]

theorem readValues_char (raw : Str) (rest acc : List Str) (c : Char)
    (h : firstNonSpace raw = some c) :
    readValues (raw :: rest) acc =
      if c = '\x7d' then .ok acc
      else if c ≠ '/' then readValues rest (acc ++ [keep_alnum (trim raw)])
      else readValues rest acc := by
  have hh : (trim raw).head? = some c := by rw [head?_trim, h]
  have hne : (trim raw).isEmpty = false := by
    cases ht : trim raw with
    | nil => rw [ht] at hh; simp at hh
    | cons a t => rfl
  simp only [readValues, hne, hh]
  simp

/-- Body lines before the closing line add their members, in order. -/
theorem readValues_append (body : List Str)
    (hbody : ∀ l ∈ body, firstNonSpace l ≠ some '\x7d') :
    ∀ (tail acc : List Str),
      readValues (body ++ tail) acc = readValues tail (acc ++ body.filterMap memberOf) := by
  induction body with
  | nil => intro tail acc; simp
  | cons raw body ih =>
    intro tail acc
    have hraw := hbody raw (by simp)
    have ih := ih (fun l hl => hbody l (List.mem_cons_of_mem _ hl))
    cases hf : firstNonSpace raw with
    | none =>
      rw [List.cons_append, readValues_blank raw _ acc hf, ih]
      simp [memberOf, hf]
    | some c =>
      have hc : c ≠ '\x7d' := fun hc => hraw (by rw [hf, hc])
      rw [List.cons_append, readValues_char raw _ acc c hf, if_neg hc]
      by_cases hs : c = '/'
      · rw [if_neg (by simpa using hs), ih]
        simp [memberOf, hf, hs]
      · rw [if_pos hs, ih]
        simp [memberOf, hf, hs]

theorem readValues_close (raw : Str) (rest acc : List Str)
    (h : firstNonSpace raw = some '\x7d') :
    readValues (raw :: rest) acc = .ok acc := by
  rw [readValues_char raw rest acc _ h, if_pos rfl]

/-- The second loop ends at the first line whose first character that is not
white space is the closing brace, and fails only at the end of the input. -/
theorem readValues_cases (lines acc : List Str) :
    (readValues lines acc = .error .truncatedBody ∧
        ∀ l ∈ lines, firstNonSpace l ≠ some '\x7d') ∨
      ∃ body closing post, lines = body ++ closing :: post ∧
        (∀ l ∈ body, firstNonSpace l ≠ some '\x7d') ∧ firstNonSpace closing = some '\x7d' ∧
        readValues lines acc = .ok (acc ++ body.filterMap memberOf) := by
  by_cases h : ∃ l ∈ lines, firstNonSpace l = some '\x7d'
  · obtain ⟨body, closing, post, rfl, h1, h2⟩ := exists_first _ lines h
    refine Or.inr ⟨body, closing, post, rfl, h1, h2, ?_⟩
    rw [readValues_append body h1, readValues_close closing post _ h2]
  · have h' : ∀ l ∈ lines, firstNonSpace l ≠ some '\x7d' := fun l hl hc => h ⟨l, hl, hc⟩
    refine Or.inl ⟨?_, h'⟩
    have := readValues_append lines h' [] acc
    rw [List.append_nil] at this
    rw [this]
    rfl

/-! ## The whole scanner -/

theorem scan_of_locateEnum (input : List Str) (h : Header)
    (hloc : locateEnum input [] = .ok h) :
    scan input =
      if h.namespaces.isEmpty then .error .noEnclosingNamespace
      else if h.enum_name.isEmpty then .error .emptyEnumName
      else match readValues h.rest [] with
        | .error e => .error e
        | .ok enum_values => .ok ⟨h.namespaces, h.enum_name, h.is_enum_class, enum_values⟩ := by
  simp only [scan, hloc]

/-- The first loop on an input whose first enum line is `hdr`. -/
theorem locateEnum_first (pre : List Str) (hdr : Str) (post : List Str)
    (hpre : ∀ x ∈ pre, ¬ "enum ".toList <+: trim x) (hhdr : "enum ".toList <+: trim hdr) :
    ∃ segs, locateEnum (pre ++ hdr :: post) []
        = .ok ⟨segs, (enumLine (trim hdr)).1, (enumLine (trim hdr)).2, post⟩ ∧
      (segs = [] ↔ ∀ x ∈ pre, ¬ "namespace ".toList <+: trim x) := by
  obtain ⟨segs, h1, h2⟩ := locateEnum_append pre hpre (hdr :: post) []
  refine ⟨segs, ?_, h2⟩
  rw [h1, List.nil_append, locateEnum_enum hdr post segs hhdr]

theorem locateEnum_none (input : List Str)
    (h : ∀ x ∈ input, ¬ "enum ".toList <+: trim x) (namespaces : List Str) :
    locateEnum input namespaces = .error .headerNotFound := by
  obtain ⟨segs, h1, _⟩ := locateEnum_append input h [] namespaces
  rw [List.append_nil] at h1
  rw [h1]
  rfl

theorem locateEnum_ok_inv (input : List Str) (h : Header)
    (hloc : locateEnum input [] = .ok h) :
    ∃ pre hdr, input = pre ++ hdr :: h.rest ∧
      (∀ x ∈ pre, ¬ "enum ".toList <+: trim x) ∧ "enum ".toList <+: trim hdr ∧
      h.enum_name = (enumLine (trim hdr)).1 ∧ h.is_enum_class = (enumLine (trim hdr)).2 ∧
      (h.namespaces = [] ↔ ∀ x ∈ pre, ¬ "namespace ".toList <+: trim x) := by
  by_cases hex : ∃ x ∈ input, "enum ".toList <+: trim x
  · obtain ⟨pre, hdr, post, rfl, hpre, hhdr⟩ := exists_first _ input hex
    obtain ⟨segs, h1, h2⟩ := locateEnum_first pre hdr post hpre hhdr
    rw [h1] at hloc
    simp only [Except.ok.injEq] at hloc
    subst hloc
    exact ⟨pre, hdr, rfl, hpre, hhdr, rfl, rfl, h2⟩
  · rw [locateEnum_none input (fun x hx hc => hex ⟨x, hx, hc⟩)] at hloc
    exact Except.noConfusion hloc

theorem scan_ok_inv (input : List Str) (r : ScanResult) (hscan : scan input = .ok r) :
    ∃ h, locateEnum input [] = .ok h ∧ h.namespaces = r.namespaces ∧ r.namespaces ≠ [] ∧
      h.enum_name = r.enum_name ∧ r.enum_name ≠ [] ∧ h.is_enum_class = r.is_enum_class ∧
      readValues h.rest [] = .ok r.enum_values := by
  cases hloc : locateEnum input [] with
  | error e => simp [scan, hloc] at hscan
  | ok h =>
    rw [scan_of_locateEnum input h hloc] at hscan
    split at hscan
    · exact Except.noConfusion hscan
    · rename_i hns
      split at hscan
      · exact Except.noConfusion hscan
      · rename_i hname
        cases hrv : readValues h.rest [] with
        | error e => simp [hrv] at hscan
        | ok vals =>
          simp only [hrv, Except.ok.injEq] at hscan
          subst hscan
          exact ⟨h, rfl, rfl, by simpa using hns, rfl, by simpa using hname, rfl, hrv⟩

theorem emit_ok (r : ScanResult) (h : r.namespaces ≠ []) : ∃ text, emit r = .ok text := by
  unfold emit
  cases hn : r.namespaces with
  | nil => exact absurd hn h
  | cons first others => exact ⟨_, rfl⟩

/-- A failure of the scanner is the failure of `main`, and `main` fails in
no other way. -/
theorem main_error_iff (input : List Str) (e : Failure) :
    main input = .error e ↔ scan input = .error e := by
  unfold main
  cases hscan : scan input with
  | error e' => simp
  | ok r =>
    obtain ⟨h, _, _, hne, _⟩ := scan_ok_inv input r hscan
    obtain ⟨text, ht⟩ := emit_ok r hne
    simp [ht]

theorem keep_alnum_word (s : Str) : ∀ c ∈ keep_alnum s, isWordChar c = true := by
  intro c hc
  rw [keep_alnum_eq] at hc
  exact List.mem_takeWhile_imp hc

theorem keep_alnum_ident_append (ident tail : Str) (hid : ∀ c ∈ ident, isWordChar c = true)
    (htail : ∀ c ∈ tail.head?, isWordChar c = false) :
    keep_alnum (ident ++ tail) = ident := by
  rw [keep_alnum_eq, List.takeWhile_append_of_pos hid]
  cases tail with
  | nil => simp
  | cons c t =>
    have hc : isWordChar c = false := htail c (by simp)
    simp [hc]

theorem enumLine_word (line : Str) : ∀ c ∈ (enumLine line).1, isWordChar c = true := by
  simp only [enumLine]
  split <;> exact keep_alnum_word _

theorem memberOf_word (raw m : Str) (h : memberOf raw = some m) :
    ∀ c ∈ m, isWordChar c = true := by
  unfold memberOf at h
  split at h
  · exact Option.noConfusion h
  · split at h
    · exact Option.noConfusion h
    · simp only [Option.some.injEq] at h
      subst h
      exact keep_alnum_word _

theorem keep_alnum_eq_nil_iff (s : Str) (c : Char) (h : s.head? = some c) :
    keep_alnum s = [] ↔ isWordChar c = false := by
  cases s with
  | nil => simp at h
  | cons a t =>
    simp only [List.head?_cons, Option.some.injEq] at h
    subst h
    rw [keep_alnum_eq]
    cases ha : isWordChar a <;> simp [List.takeWhile, ha]

/-- On a line of the documented body the second loop adds the declared
member, or nothing for a blank line and a comment line; the line does not
close the body. -/
theorem memberOf_bodyLine (raw : Str) (member : Option Str) (h : BodyLine raw member) :
    memberOf raw = member ∧ firstNonSpace raw ≠ some '\x7d' := by
  rcases h with ⟨ht, rfl⟩ | ⟨hc, rfl⟩ | ⟨ident, expr, hid, rfl, hform⟩
  · have := (trim_eq_nil_iff raw).1 ht
    simp [memberOf, this]
  · rw [head?_trim] at hc
    simp [memberOf, hc]
  · obtain ⟨c, t, hct⟩ : ∃ c t, ident = c :: t := by
      cases ident with
      | nil => exact absurd rfl hid.1
      | cons c t => exact ⟨c, t, rfl⟩
    have hc : isWordChar c = true := hid.2 c (by simp [hct])
    have hkeep : ∀ tail : Str, (∀ x ∈ tail.head?, isWordChar x = false) →
        trim raw = ident ++ tail →
        memberOf raw = some ident ∧ firstNonSpace raw ≠ some '\x7d' := by
      intro tail htail heq
      have hf : firstNonSpace raw = some c := by
        rw [← head?_trim, heq, hct]
        rfl
      have hk : keep_alnum (trim raw) = ident := by
        rw [heq]
        exact keep_alnum_ident_append ident tail hid.2 htail
      refine ⟨?_, ?_⟩
      · have h1 : c ≠ '/' := isWordChar_ne hc (by decide)
        simp [memberOf, hf, h1, hk]
      · rw [hf]
        intro hcc
        exact isWordChar_ne hc (by decide) (Option.some.inj hcc)
    rcases hform with h | h | h | h
    · exact hkeep [] (by simp) (by rw [h, List.append_nil])
    · exact hkeep ",".toList (by intro x hx; cases hx; decide) h
    · exact hkeep (" = ".toList ++ expr) (by intro x hx; cases hx; decide)
        (by rw [h, List.append_assoc])
    · exact hkeep (" = ".toList ++ expr ++ ",".toList) (by intro x hx; cases hx; decide)
        (by rw [h]; simp)

/-- What the scanner does once the first enum line `hdr` is located with a
non-empty namespace path: it fails on an empty name, fails at the end of the
input when no line closes the body, and succeeds otherwise. -/
theorem scan_after_header (input : List Str) (h : Header)
    (hloc : locateEnum input [] = .ok h) (hns : h.namespaces ≠ []) :
    (h.enum_name = [] ∧ scan input = .error .emptyEnumName) ∨
    (h.enum_name ≠ [] ∧ scan input = .error .truncatedBody ∧
      ∀ l ∈ h.rest, firstNonSpace l ≠ some '\x7d') ∨
    (h.enum_name ≠ [] ∧ (∃ l ∈ h.rest, firstNonSpace l = some '\x7d') ∧
      ∃ r, scan input = .ok r) := by
  rw [scan_of_locateEnum input h hloc]
  have h1 : h.namespaces.isEmpty = false := by
    cases hn : h.namespaces <;> simp [hn] at hns ⊢
  by_cases hname : h.enum_name = []
  · left
    simp [h1, hname]
  · right
    have h2 : h.enum_name.isEmpty = false := by
      cases hn : h.enum_name <;> simp [hn] at hname ⊢
    rcases readValues_cases h.rest [] with ⟨hrv, hall⟩ | ⟨body, closing, post, hrest, _, hcl, hrv⟩
    · left
      refine ⟨hname, ?_, hall⟩
      simp [h1, h2, hrv]
    · right
      refine ⟨hname, ⟨closing, by simp [hrest], hcl⟩, ?_⟩
      simp [h1, h2, hrv]

/-! ## The emitter -/

/-- A loop that writes one piece of text per element to the stream writes
the pieces one after the other. -/
theorem foldl_write {α : Type} (f : α → Str) :
    ∀ (l : List α) (out : Str),
      l.foldl (fun out v => out ++ f v) out = out ++ (l.map f).flatten := by
  intro l
  induction l with
  | nil => intro out; simp
  | cons a l ih =>
    intro out
    simp only [List.foldl_cons, ih, List.map_cons, List.flatten_cons, List.append_assoc]

theorem renderChain_eq (chain : List IfTest) :
    renderChain chain = (chain.map IfTest.render).flatten
      ++ ("\x7b\n".toList ++ "    return false;\n".toList ++ "  \x7d\n".toList) := by
  induction chain with
  | nil => rfl
  | cons t ts ih =>
    simp only [renderChain, ih, List.map_cons, List.flatten_cons, List.append_assoc]

theorem evalChain_map (pre : Str) (s : Str) :
    ∀ (vals : List Str),
      evalChain (vals.map (fun m => IfTest.mk m (pre ++ m))) s
        = if s ∈ vals then some (pre ++ s) else none := by
  intro vals
  induction vals with
  | nil => simp [evalChain]
  | cons v vals ih =>
    simp only [List.map_cons, evalChain, ih, List.mem_cons]
    by_cases h : s = v
    · simp [h]
    · simp [h]

/-- C1. Phase 1, namespace line: when the trimmed line is
`namespace I1::I2::...::Ik`, alone or followed by white space and a final
opening brace, with `k ≥ 1` and every `Ij` a non-empty string of alphanumeric
or underscore characters, the scanner appends exactly `[I1, ..., Ik]`, in that
order, to the end of the namespace path and goes on with the next line. -/
theorem C1_namespace_line_appends_segments (ids : List Str) (ws raw : Str)
    (rest namespaces : List Str)
    (hk : ids ≠ []) (hids : ∀ i ∈ ids, IsIdent i) (hws : ∀ c ∈ ws, isspace c = true)
    (hline : trim raw = "namespace ".toList ++ "::".toList.intercalate ids ∨
      trim raw = "namespace ".toList ++ "::".toList.intercalate ids ++ ws ++ "\x7b".toList) :
    namespaceLine (trim raw) namespaces = .ok (namespaces ++ ids) ∧
      locateEnum (raw :: rest) namespaces = locateEnum rest (namespaces ++ ids) := by
  have h1 := namespaceLine_idents ids ws (trim raw) namespaces hk hids hws hline
  have hp : "namespace ".toList <+: trim raw := by
    rcases hline with h | h <;> rw [h]
    · exact List.prefix_append _ _
    · rw [List.append_assoc, List.append_assoc]
      exact List.prefix_append _ _
  exact ⟨h1, locateEnum_namespace raw rest namespaces ids hp h1⟩

/-- C1 at `  namespace caf::detail {` with `["std"]` already collected. -/
theorem C1_namespace_line_appends_segments_witness :
    namespaceLine (trim "  namespace caf::detail \x7b".toList) ["std".toList]
        = .ok ["std".toList, "caf".toList, "detail".toList] ∧
      locateEnum ["  namespace caf::detail \x7b".toList, "enum x".toList] ["std".toList]
        = locateEnum ["enum x".toList] ["std".toList, "caf".toList, "detail".toList] :=
  C1_namespace_line_appends_segments ["caf".toList, "detail".toList] " ".toList
    "  namespace caf::detail \x7b".toList ["enum x".toList] ["std".toList]
    (by decide) (by decide) (by decide) (by decide)

/-- C2, counterexample. The line `enum class {` is `enum IDENT` followed by
` {` with `IDENT = class`, a non-empty string of alphanumeric characters, yet
the scanner ends phase 1 with the empty enum name. -/
theorem C2_enum_header_counterexample :
    IsIdent "class".toList ∧
      trim "enum class \x7b".toList = "enum ".toList ++ "class".toList ++ " \x7b".toList ∧
      locateEnum ["enum class \x7b".toList] [] = .ok ⟨[], [], true, []⟩ ∧
      ¬ ∃ b, locateEnum ["enum class \x7b".toList] [] = .ok ⟨[], "class".toList, b, []⟩ := by
  refine ⟨by decide, by decide, by decide, ?_⟩
  rintro ⟨b, hb⟩
  have h : locateEnum ["enum class \x7b".toList] [] = .ok ⟨[], [], true, []⟩ := by decide
  rw [h] at hb
  simp at hb

/-- C2, amended. Phase 1, enum header: when the trimmed line is `enum IDENT`
or `enum class IDENT`, alone or followed by ` : TYPE` and/or ` {`, with `IDENT`
a non-empty string of alphanumeric or underscore characters that is not the
word `class` directly after `enum ` with something following it, the scanner
ends phase 1 with the enum name exactly `IDENT`, the namespaces collected so
far and the remaining lines, and `is_enum_class` is true if and only if the
text after `enum ` begins with `class `. -/
theorem C2_enum_header (ident ty tail raw : Str) (rest namespaces : List Str)
    (hid : IsIdent ident)
    (htail : tail ∈ [[], " \x7b".toList, " : ".toList ++ ty, " : ".toList ++ ty ++ " \x7b".toList])
    (hline : (trim raw = "enum ".toList ++ ident ++ tail ∧ (ident = "class".toList → tail = [])) ∨
      trim raw = "enum class ".toList ++ ident ++ tail) :
    ∃ b, locateEnum (raw :: rest) namespaces = .ok ⟨namespaces, ident, b, rest⟩ ∧
      ∀ after, trim raw = "enum ".toList ++ after → (b = true ↔ "class ".toList <+: after) := by
  have hcases := header_tail_cases ty tail htail
  rcases hline with ⟨h, hkw⟩ | h
  · refine ⟨false, ?_, ?_⟩
    · rw [locateEnum_enum raw rest namespaces
        (by rw [h, List.append_assoc]; exact List.prefix_append _ _), h,
        enumLine_plain ident tail hid hcases hkw]
    · intro after hafter
      rw [h, List.append_assoc] at hafter
      have := List.append_cancel_left hafter
      subst this
      simp only [Bool.false_eq_true, false_iff]
      exact class_not_leading ident tail hid hcases hkw
  · have hhead : ∀ c ∈ tail.head?, isWordChar c = false := by
      rcases hcases with rfl | ⟨t, rfl⟩
      · simp
      · intro c hc
        simp only [List.head?_cons, Option.mem_def, Option.some.injEq] at hc
        subst hc
        decide
    refine ⟨true, ?_, ?_⟩
    · rw [locateEnum_enum raw rest namespaces
        (by rw [h, List.append_assoc]; exact ⟨_, rfl⟩), h,
        enumLine_class ident tail hid hhead]
    · intro after hafter
      rw [h] at hafter
      have hafter2 : "enum ".toList ++ ("class ".toList ++ (ident ++ tail))
          = "enum ".toList ++ after := by
        rw [← hafter, List.append_assoc]
        rfl
      have := List.append_cancel_left hafter2
      subst this
      simp only [true_iff]
      exact List.prefix_append _ _

/-- C2 at `  enum class sec : uint8_t {` and at `enum class`. -/
theorem C2_enum_header_witness :
    (∃ b, locateEnum ["  enum class sec : uint8_t \x7b".toList, "none,".toList] ["caf".toList]
        = .ok ⟨["caf".toList], "sec".toList, b, ["none,".toList]⟩ ∧
      ∀ after, trim "  enum class sec : uint8_t \x7b".toList = "enum ".toList ++ after →
        (b = true ↔ "class ".toList <+: after)) ∧
    (∃ b, locateEnum ["enum class".toList] [] = .ok ⟨[], "class".toList, b, []⟩ ∧
      ∀ after, trim "enum class".toList = "enum ".toList ++ after →
        (b = true ↔ "class ".toList <+: after)) :=
  ⟨C2_enum_header "sec".toList "uint8_t".toList " : uint8_t \x7b".toList
      "  enum class sec : uint8_t \x7b".toList ["none,".toList] ["caf".toList]
      (by decide) (by decide) (Or.inr (by decide)),
    C2_enum_header "class".toList [] [] "enum class".toList [] []
      (by decide) (by decide) (Or.inl ⟨by decide, fun _ => rfl⟩)⟩

/-- C3. Phase 2 on the documented grammar: after an enum header that passes
the sanity checks, when every body line is (after trimming) empty, a comment
starting with `/`, or `IDENT`, `IDENT,`, `IDENT = EXPR` or `IDENT = EXPR,`, and
the body is followed by a line whose first character that is not white space
is the closing brace, the scan succeeds and the member list is exactly the
list of the `IDENT`s of the member lines, in declaration order. -/
theorem C3_member_collection (pre : List Str) (hdr : Str) (body : List (Str × Option Str))
    (closing : Str) (post : List Str)
    (hpre : ∀ x ∈ pre, ¬ "enum ".toList <+: trim x) (hhdr : "enum ".toList <+: trim hdr)
    (hns : ∃ x ∈ pre, "namespace ".toList <+: trim x) (hname : (enumLine (trim hdr)).1 ≠ [])
    (hbody : ∀ p ∈ body, BodyLine p.1 p.2)
    (hclose : firstNonSpace closing = some '\x7d') :
    ∃ namespaces, namespaces ≠ [] ∧
      scan (pre ++ hdr :: (body.map Prod.fst ++ closing :: post))
        = .ok ⟨namespaces, (enumLine (trim hdr)).1, (enumLine (trim hdr)).2,
            body.filterMap Prod.snd⟩ := by
  obtain ⟨segs, hloc, hsegs⟩ := locateEnum_first pre hdr
    (body.map Prod.fst ++ closing :: post) hpre hhdr
  have hne : segs ≠ [] := by
    intro h0
    obtain ⟨x, hx, hxn⟩ := hns
    exact hsegs.1 h0 x hx hxn
  have hopen : ∀ l ∈ body.map Prod.fst, firstNonSpace l ≠ some '\x7d' := by
    intro l hl
    obtain ⟨p, hp, rfl⟩ := List.mem_map.1 hl
    exact (memberOf_bodyLine p.1 p.2 (hbody p hp)).2
  have hmem : (body.map Prod.fst).filterMap memberOf = body.filterMap Prod.snd := by
    rw [List.filterMap_map]
    apply List.filterMap_congr
    intro p hp
    exact (memberOf_bodyLine p.1 p.2 (hbody p hp)).1
  refine ⟨segs, hne, ?_⟩
  rw [scan_of_locateEnum _ _ hloc]
  have h1 : segs.isEmpty = false := by cases segs <;> simp at hne ⊢
  have h2 : (enumLine (trim hdr)).1.isEmpty = false := by
    cases h : (enumLine (trim hdr)).1 <;> simp [h] at hname ⊢
  simp only [h1, h2, readValues_append _ hopen, readValues_close closing post _ hclose, hmem]
  simp

/-- C3 on a body with members, a blank line and a comment line. -/
theorem C3_member_collection_witness :
    ∃ namespaces, namespaces ≠ [] ∧
      scan (["namespace caf \x7b".toList] ++ "enum class color : int \x7b".toList ::
        ([("  red,".toList, some "red".toList), ("".toList, none),
          ("  // primary".toList, none), ("  green = 2,".toList, some "green".toList),
          ("  blue = red + 2".toList, some "blue".toList),
          ("  last".toList, some "last".toList)].map Prod.fst
          ++ "\x7d;".toList :: ["\x7d".toList]))
        = .ok ⟨namespaces, (enumLine (trim "enum class color : int \x7b".toList)).1,
            (enumLine (trim "enum class color : int \x7b".toList)).2,
            [("  red,".toList, some "red".toList), ("".toList, none),
              ("  // primary".toList, none), ("  green = 2,".toList, some "green".toList),
              ("  blue = red + 2".toList, some "blue".toList),
              ("  last".toList, some "last".toList)].filterMap Prod.snd⟩ :=
  C3_member_collection ["namespace caf \x7b".toList] "enum class color : int \x7b".toList _
    "\x7d;".toList ["\x7d".toList] (by decide) (by decide)
    ⟨"namespace caf \x7b".toList, by decide, by decide⟩ (by decide)
    (List.forall_mem_cons.2 ⟨Or.inr (Or.inr ⟨"red".toList, [], by decide, rfl,
        Or.inr (Or.inl (by decide))⟩),
      List.forall_mem_cons.2 ⟨Or.inl ⟨by decide, rfl⟩,
      List.forall_mem_cons.2 ⟨Or.inr (Or.inl ⟨by decide, rfl⟩),
      List.forall_mem_cons.2 ⟨Or.inr (Or.inr ⟨"green".toList, "2".toList, by decide, rfl,
        Or.inr (Or.inr (Or.inr (by decide)))⟩),
      List.forall_mem_cons.2 ⟨Or.inr (Or.inr ⟨"blue".toList, "red + 2".toList, by decide, rfl,
        Or.inr (Or.inr (Or.inl (by decide)))⟩),
      List.forall_mem_cons.2 ⟨Or.inr (Or.inr ⟨"last".toList, [], by decide, rfl,
        Or.inl (by decide)⟩),
      fun _ h => absurd h (List.not_mem_nil _)⟩⟩⟩⟩⟩⟩)
    (by decide)

/-- C4. NoEnclosingNamespace: on an input whose first line with trimmed
content beginning with `enum ` is `hdr`, the scan fails with "enum found
outside of a namespace" if and only if no line before `hdr` has trimmed
content beginning with `namespace `; `main` then ends with that failure, so
the emitter is not run and there is no output text. -/
theorem C4_no_enclosing_namespace (pre : List Str) (hdr : Str) (post : List Str)
    (hpre : ∀ x ∈ pre, ¬ "enum ".toList <+: trim x) (hhdr : "enum ".toList <+: trim hdr) :
    (scan (pre ++ hdr :: post) = .error .noEnclosingNamespace ↔
      ∀ x ∈ pre, ¬ "namespace ".toList <+: trim x) ∧
    (main (pre ++ hdr :: post) = .error .noEnclosingNamespace ↔
      ∀ x ∈ pre, ¬ "namespace ".toList <+: trim x) ∧
    ((∀ x ∈ pre, ¬ "namespace ".toList <+: trim x) →
      ∀ text, main (pre ++ hdr :: post) ≠ .ok text) := by
  obtain ⟨segs, hloc, hsegs⟩ := locateEnum_first pre hdr post hpre hhdr
  have hscan : scan (pre ++ hdr :: post) = .error .noEnclosingNamespace ↔
      ∀ x ∈ pre, ¬ "namespace ".toList <+: trim x := by
    rw [← hsegs]
    constructor
    · intro h
      by_contra hne
      rcases scan_after_header _ _ hloc hne with ⟨_, h'⟩ | ⟨_, h', _⟩ | ⟨_, _, r, h'⟩ <;>
        rw [h'] at h <;> simp at h
    · intro h
      subst h
      rw [scan_of_locateEnum _ _ hloc]
      rfl
  refine ⟨hscan, ?_, ?_⟩
  · rw [main_error_iff, hscan]
  · intro h text hmain
    have := (main_error_iff _ _).2 (hscan.2 h)
    rw [this] at hmain
    exact Except.noConfusion hmain

/-- C4 on an enum at the top of the file, and on one inside a namespace. -/
theorem C4_no_enclosing_namespace_witness :
    ((scan (["// colors".toList] ++ "enum color \x7b".toList :: ["red".toList, "\x7d;".toList])
        = .error .noEnclosingNamespace ↔
      ∀ x ∈ ["// colors".toList], ¬ "namespace ".toList <+: trim x) ∧
    (main (["// colors".toList] ++ "enum color \x7b".toList :: ["red".toList, "\x7d;".toList])
        = .error .noEnclosingNamespace ↔
      ∀ x ∈ ["// colors".toList], ¬ "namespace ".toList <+: trim x) ∧
    ((∀ x ∈ ["// colors".toList], ¬ "namespace ".toList <+: trim x) →
      ∀ text, main (["// colors".toList] ++ "enum color \x7b".toList ::
        ["red".toList, "\x7d;".toList]) ≠ .ok text)) ∧
    (∀ x ∈ ["// colors".toList], ¬ "namespace ".toList <+: trim x) :=
  ⟨C4_no_enclosing_namespace ["// colors".toList] "enum color \x7b".toList
    ["red".toList, "\x7d;".toList] (by decide) (by decide), by decide⟩

/-- C5. HeaderNotFound: the scan, and with it `main`, fails with "unable to
locate enum in file" if and only if no line of the input has trimmed content
beginning with `enum `. -/
theorem C5_header_not_found (input : List Str) :
    (scan input = .error .headerNotFound ↔ ∀ x ∈ input, ¬ "enum ".toList <+: trim x) ∧
    (main input = .error .headerNotFound ↔ ∀ x ∈ input, ¬ "enum ".toList <+: trim x) := by
  have hscan : scan input = .error .headerNotFound ↔
      ∀ x ∈ input, ¬ "enum ".toList <+: trim x := by
    constructor
    · intro h x hx hc
      obtain ⟨pre, hdr, post, rfl, hpre, hhdr⟩ :=
        exists_first (fun y => "enum ".toList <+: trim y) input ⟨x, hx, hc⟩
      obtain ⟨segs, hloc, _⟩ := locateEnum_first pre hdr post hpre hhdr
      by_cases hne : segs = []
      · subst hne
        rw [scan_of_locateEnum _ _ hloc] at h
        simp at h
      · rcases scan_after_header _ _ hloc hne with ⟨_, h'⟩ | ⟨_, h', _⟩ | ⟨_, _, r, h'⟩ <;>
          rw [h'] at h <;> simp at h
    · intro h
      simp [scan, locateEnum_none input h]
  exact ⟨hscan, by rw [main_error_iff, hscan]⟩

/-- C6. TruncatedBody: on an input whose first enum line is `hdr`, with a
namespace line before it and a non-empty enum name (phase 1 succeeds), the
scan, and with it `main`, fails with "unable to read enum values" if and only
if no line after `hdr` has the closing brace as its first character that is
not white space. -/
theorem C6_truncated_body (pre : List Str) (hdr : Str) (post : List Str)
    (hpre : ∀ x ∈ pre, ¬ "enum ".toList <+: trim x) (hhdr : "enum ".toList <+: trim hdr)
    (hns : ∃ x ∈ pre, "namespace ".toList <+: trim x) (hname : (enumLine (trim hdr)).1 ≠ []) :
    (scan (pre ++ hdr :: post) = .error .truncatedBody ↔
      ∀ l ∈ post, firstNonSpace l ≠ some '\x7d') ∧
    (main (pre ++ hdr :: post) = .error .truncatedBody ↔
      ∀ l ∈ post, firstNonSpace l ≠ some '\x7d') := by
  obtain ⟨segs, hloc, hsegs⟩ := locateEnum_first pre hdr post hpre hhdr
  have hne : segs ≠ [] := by
    intro h0
    obtain ⟨x, hx, hxn⟩ := hns
    exact hsegs.1 h0 x hx hxn
  have hscan : scan (pre ++ hdr :: post) = .error .truncatedBody ↔
      ∀ l ∈ post, firstNonSpace l ≠ some '\x7d' := by
    rcases scan_after_header _ _ hloc hne with ⟨h0, _⟩ | ⟨_, h', hall⟩ | ⟨_, ⟨l, hl, hc⟩, r, h'⟩
    · exact absurd h0 hname
    · exact ⟨fun _ => hall, fun _ => h'⟩
    · constructor
      · intro h
        rw [h'] at h
        exact Except.noConfusion h
      · intro h
        exact absurd hc (h l hl)
  exact ⟨hscan, by rw [main_error_iff, hscan]⟩

/-- C6 on a body that is never closed. -/
theorem C6_truncated_body_witness :
    (scan (["namespace caf \x7b".toList] ++ "enum color \x7b".toList ::
        ["red,".toList, "green".toList]) = .error .truncatedBody ↔
      ∀ l ∈ ["red,".toList, "green".toList], firstNonSpace l ≠ some '\x7d') ∧
    (main (["namespace caf \x7b".toList] ++ "enum color \x7b".toList ::
        ["red,".toList, "green".toList]) = .error .truncatedBody ↔
      ∀ l ∈ ["red,".toList, "green".toList], firstNonSpace l ≠ some '\x7d') :=
  C6_truncated_body ["namespace caf \x7b".toList] "enum color \x7b".toList
    ["red,".toList, "green".toList] (by decide) (by decide)
    ⟨"namespace caf \x7b".toList, by decide, by decide⟩ (by decide)

/-- C7. Scan-result invariant: when the scan succeeds, the namespace path is
non-empty and the enum name is non-empty and consists only of alphanumeric or
underscore characters. -/
theorem C7_scan_result_invariant (input : List Str) (r : ScanResult)
    (h : scan input = .ok r) :
    r.namespaces ≠ [] ∧ r.enum_name ≠ [] ∧
      ∀ c ∈ r.enum_name, isalnum c = true ∨ c = '_' := by
  obtain ⟨hd, hloc, _, hns, hname, hne, _, _⟩ := scan_ok_inv input r h
  obtain ⟨pre, hdr, _, _, _, hn, _, _⟩ := locateEnum_ok_inv input hd hloc
  refine ⟨hns, hne, ?_⟩
  intro c hc
  rw [← hname, hn] at hc
  have := enumLine_word _ c hc
  simpa [isWordChar] using this

/-- C7 on a small header file. -/
theorem C7_scan_result_invariant_witness :
    ["caf".toList, "io".toList] ≠ [] ∧ "op_t".toList ≠ [] ∧
      ∀ c ∈ "op_t".toList, isalnum c = true ∨ c = '_' :=
  C7_scan_result_invariant
    ["namespace caf::io \x7b".toList, "enum op_t : int \x7b".toList, "read,".toList,
      "\x7d;".toList]
    ⟨["caf".toList, "io".toList], "op_t".toList, false, ["read".toList]⟩ (by decide)

/-- C8, counterexample. A body line `{` and a body line `= 3,` each add an
empty member on a scan that succeeds. -/
theorem C8_member_nonempty_counterexample :
    scan ["namespace caf \x7b".toList, "enum color".toList, "\x7b".toList, "red,".toList,
        "= 3,".toList, "\x7d;".toList]
      = .ok ⟨["caf".toList], "color".toList, false, [[], "red".toList, []]⟩ ∧
    ¬ ∀ m ∈ [[], "red".toList, ([] : Str)], m ≠ [] := by
  decide

/-- C8, amended. When the scan succeeds, the member list holds one entry for
every line between the enum line and the first closing line whose trimmed
content is non-empty and does not start with `/`, in order; the entry is the
leading run of alphanumeric or underscore characters of the trimmed line, so
it has no other character, and it is empty exactly when the line starts with
a character that is neither alphanumeric nor an underscore. -/
theorem C8_member_entries (input : List Str) (r : ScanResult) (h : scan input = .ok r) :
    ∃ pre hdr body closing post, input = pre ++ hdr :: (body ++ closing :: post) ∧
      (∀ x ∈ pre, ¬ "enum ".toList <+: trim x) ∧ "enum ".toList <+: trim hdr ∧
      (∀ l ∈ body, firstNonSpace l ≠ some '\x7d') ∧ firstNonSpace closing = some '\x7d' ∧
      r.enum_values = body.filterMap memberOf ∧
      (∀ m ∈ r.enum_values, ∀ c ∈ m, isalnum c = true ∨ c = '_') ∧
      (∀ raw ∈ body, ∀ c, firstNonSpace raw = some c → c ≠ '/' →
        memberOf raw = some ((trim raw).takeWhile isWordChar) ∧
        ((trim raw).takeWhile isWordChar = [] ↔ isWordChar c = false)) := by
  obtain ⟨hd, hloc, _, _, _, _, _, hrv⟩ := scan_ok_inv input r h
  obtain ⟨pre, hdr, hin, hpre, hhdr, _, _, _⟩ := locateEnum_ok_inv input hd hloc
  rcases readValues_cases hd.rest [] with ⟨herr, _⟩ | ⟨body, closing, post, hrest, hb, hcl, hok⟩
  · rw [herr] at hrv
    exact Except.noConfusion hrv
  · rw [hok] at hrv
    simp only [List.nil_append, Except.ok.injEq] at hrv
    refine ⟨pre, hdr, body, closing, post, by rw [hin, hrest], hpre, hhdr, hb, hcl,
      hrv.symm, ?_, ?_⟩
    · intro m hm c hc
      rw [← hrv] at hm
      obtain ⟨raw, _, hraw⟩ := List.mem_filterMap.1 hm
      have := memberOf_word raw m hraw c hc
      simpa [isWordChar] using this
    · intro raw _ c hf hc
      refine ⟨by simp [memberOf, hf, hc, keep_alnum_eq], ?_⟩
      rw [← keep_alnum_eq]
      exact keep_alnum_eq_nil_iff (trim raw) c (by rw [head?_trim, hf])

/-- C8, amended, on the input of the counterexample. -/
theorem C8_member_entries_witness :
    ∃ pre hdr body closing post,
      ["namespace caf \x7b".toList, "enum color".toList, "\x7b".toList, "red,".toList,
        "= 3,".toList, "\x7d;".toList] = pre ++ hdr :: (body ++ closing :: post) ∧
      (∀ x ∈ pre, ¬ "enum ".toList <+: trim x) ∧ "enum ".toList <+: trim hdr ∧
      (∀ l ∈ body, firstNonSpace l ≠ some '\x7d') ∧ firstNonSpace closing = some '\x7d' ∧
      [[], "red".toList, ([] : Str)] = body.filterMap memberOf ∧
      (∀ m ∈ [[], "red".toList, ([] : Str)], ∀ c ∈ m, isalnum c = true ∨ c = '_') ∧
      (∀ raw ∈ body, ∀ c, firstNonSpace raw = some c → c ≠ '/' →
        memberOf raw = some ((trim raw).takeWhile isWordChar) ∧
        ((trim raw).takeWhile isWordChar = [] ↔ isWordChar c = false)) :=
  C8_member_entries
    ["namespace caf \x7b".toList, "enum color".toList, "\x7b".toList, "red,".toList,
      "= 3,".toList, "\x7d;".toList]
    ⟨["caf".toList], "color".toList, false, [[], "red".toList, []]⟩ (by decide)

/-- C9. Stringify emission: the text of `to_string` is its opening lines, the
`default` branch returning `"???"`, then exactly one `case` branch per member,
in the order of the member list, the branch of a member having the label
`<prefix><member>` and returning the string literal that is the member, and
the closing lines. The text is written to the stream as it stands. -/
theorem C9_to_string_emission (r : ScanResult) :
    ∃ branches : List CaseBranch,
      emit_to_string r [] =
        "std::string to_string(".toList ++ r.enum_name ++ " x) \x7b\n".toList
          ++ "  switch(x) \x7b\n".toList
          ++ "    default:\n".toList
          ++ "      return \"???\";\n".toList
          ++ (branches.map CaseBranch.render).flatten
          ++ "  \x7d;\n".toList
          ++ "\x7d\n\n".toList ∧
      branches.length = r.enum_values.length ∧
      branches = r.enum_values.map (fun m => ⟨ case_label_prefix r ++ m, m⟩) ∧
      ∀ out, emit_to_string r out = out ++ emit_to_string r [] := by
  have hf : (fun (out : Str) (val : Str) => out ++ "    case ".toList
        ++  case_label_prefix r ++ val ++ ":\n".toList
        ++ "      return \"".toList ++ val ++ "\";\n".toList)
      = (fun out val => out ++ CaseBranch.render ⟨ case_label_prefix r ++ val, val⟩) := by
    funext out val
    simp only [CaseBranch.render, List.append_assoc]
  have key : ∀ out, emit_to_string r out = out ++
      ("std::string to_string(".toList ++ r.enum_name ++ " x) \x7b\n".toList
        ++ "  switch(x) \x7b\n".toList
        ++ "    default:\n".toList
        ++ "      return \"???\";\n".toList
        ++ ((r.enum_values.map (fun m => CaseBranch.mk ( case_label_prefix r ++ m) m)).map
            CaseBranch.render).flatten
        ++ "  \x7d;\n".toList
        ++ "\x7d\n\n".toList) := by
    intro out
    unfold emit_to_string
    rw [hf]
    simp only [foldl_write, List.map_map, List.append_assoc, Function.comp_def]
  refine ⟨r.enum_values.map (fun m => ⟨ case_label_prefix r ++ m, m⟩), ?_, by simp, rfl, ?_⟩
  · rw [key []]
    rfl
  · intro out
    rw [key out, key []]
    rfl

/-- C10. Parse round-trip law: the text of `from_string` is its opening line,
a chain of exactly one `if (in == "M")` test per member `M`, in the order of
the member list, each assigning `<prefix>M` to `out` and returning true, and
the final `else` block that returns false. Read as a function the chain
succeeds with the constant of `M` on every member `M`, and fails on every
string that is not a member. The text is written to the stream as it stands. -/
theorem C10_from_string_round_trip (r : ScanResult) :
    ∃ chain : List IfTest,
      emit_from_string r [] =
        "bool from_string(string_view in, ".toList ++ r.enum_name ++ "& out) \x7b\n  ".toList
          ++ renderChain chain ++ "\x7d\n\n".toList ∧
      chain = r.enum_values.map (fun m => ⟨m,  case_label_prefix r ++ m⟩) ∧
      chain.length = r.enum_values.length ∧
      (∀ m ∈ r.enum_values, evalChain chain m = some ( case_label_prefix r ++ m)) ∧
      (∀ s, s ∉ r.enum_values → evalChain chain s = none) ∧
      ∀ out, emit_from_string r out = out ++ emit_from_string r [] := by
  have hf : (fun (out : Str) (val : Str) => out ++ "if (in == \"".toList ++ val
        ++ "\") \x7b\n".toList
        ++ "    out = ".toList ++  case_label_prefix r ++ val ++ ";\n".toList
        ++ "    return true;\n".toList
        ++ "  \x7d else ".toList)
      = (fun out val => out ++ IfTest.render ⟨val,  case_label_prefix r ++ val⟩) := by
    funext out val
    simp only [IfTest.render, List.append_assoc]
  have key : ∀ out, emit_from_string r out = out ++
      ("bool from_string(string_view in, ".toList ++ r.enum_name ++ "& out) \x7b\n  ".toList
        ++ renderChain (r.enum_values.map (fun m => ⟨m,  case_label_prefix r ++ m⟩))
        ++ "\x7d\n\n".toList) := by
    intro out
    unfold emit_from_string
    rw [hf]
    simp only [foldl_write, renderChain_eq, List.map_map, List.append_assoc,
      Function.comp_def]
  refine ⟨r.enum_values.map (fun m => ⟨m,  case_label_prefix r ++ m⟩), ?_, rfl, by simp,
    ?_, ?_, ?_⟩
  · rw [key []]
    rfl
  · intro m hm
    rw [evalChain_map, if_pos hm]
  · intro s hs
    rw [evalChain_map, if_neg hs]
  · intro out
    rw [key out, key []]
    rfl

/-! ## The three generated functions as texts -/

theorem case_label_prefix_append (r : ScanResult) (m : Str) :
     case_label_prefix r ++ m = qualified r m := by
  unfold  case_label_prefix qualified
  split <;> simp

/-- Source lines 141-149 write the opening lines, the default branch, one
branch per member and the closing lines. -/
theorem emit_to_string_eq (r : ScanResult) (out : Str) :
    emit_to_string r out = out ++
      ("std::string to_string(".toList ++ r.enum_name ++ " x) \x7b\n".toList
        ++ "  switch(x) \x7b\n".toList
        ++ "    default:\n".toList
        ++ "      return \"???\";\n".toList
        ++ ((r.enum_values.map (fun m => CaseBranch.mk (qualified r m) m)).map
            CaseBranch.render).flatten
        ++ "  \x7d;\n".toList
        ++ "\x7d\n\n".toList) := by
  have hf : (fun (out : Str) (val : Str) => out ++ "    case ".toList
        ++  case_label_prefix r ++ val ++ ":\n".toList
        ++ "      return \"".toList ++ val ++ "\";\n".toList)
      = (fun out val => out ++ CaseBranch.render ⟨qualified r val, val⟩) := by
    funext out val
    simp only [CaseBranch.render, ← case_label_prefix_append, List.append_assoc]
  unfold emit_to_string
  rw [hf]
  simp only [foldl_write, List.map_map, List.append_assoc, Function.comp_def]

/-- Source lines 151-160 write the opening line, the chain of tests and the
closing line. -/
theorem emit_from_string_eq (r : ScanResult) (out : Str) :
    emit_from_string r out = out ++
      ("bool from_string(string_view in, ".toList ++ r.enum_name ++ "& out) \x7b\n  ".toList
        ++ renderChain (r.enum_values.map (fun m => IfTest.mk m (qualified r m)))
        ++ "\x7d\n\n".toList) := by
  have hf : (fun (out : Str) (val : Str) => out ++ "if (in == \"".toList ++ val
        ++ "\") \x7b\n".toList
        ++ "    out = ".toList ++  case_label_prefix r ++ val ++ ";\n".toList
        ++ "    return true;\n".toList
        ++ "  \x7d else ".toList)
      = (fun out val => out ++ IfTest.render ⟨val, qualified r val⟩) := by
    funext out val
    simp only [IfTest.render, ← case_label_prefix_append, List.append_assoc]
  unfold emit_from_string
  rw [hf]
  simp only [foldl_write, renderChain_eq, List.map_map, List.append_assoc,
    Function.comp_def]

/-- Source lines 162-173 write the opening lines with the cast, the default
branch, one label per member and the body shared by the labels. -/
theorem emit_from_integer_eq (r : ScanResult) (out : Str) :
    emit_from_integer r out = out ++
      ("bool from_integer(std::underlying_type_t<".toList ++ r.enum_name ++ "> in,\n".toList
        ++ "                  ".toList ++ r.enum_name ++ "& out) \x7b\n".toList
        ++ "  auto result = static_cast<".toList ++ r.enum_name ++ ">(in);\n".toList
        ++ "  switch(result) \x7b\n".toList
        ++ "    default:\n".toList
        ++ "      return false;\n".toList
        ++ ((r.enum_values.map (qualified r)).map renderLabel).flatten
        ++ "      out = result;\n".toList
        ++ "      return true;\n".toList
        ++ "  \x7d;\n".toList
        ++ "\x7d\n\n".toList) := by
  have hf : (fun (out : Str) (val : Str) => out ++ "  case ".toList
        ++  case_label_prefix r ++ val ++ ":\n".toList)
      = (fun out val => out ++ renderLabel (qualified r val)) := by
    funext out val
    simp only [renderLabel, ← case_label_prefix_append, List.append_assoc]
  unfold emit_from_integer
  rw [hf]
  simp only [foldl_write, List.map_map, List.append_assoc, Function.comp_def]

theorem intercalate_cons_eq (sep : Str) :
    ∀ (l : List Str) (a : Str),
      sep.intercalate (a :: l) = a ++ (l.map (fun n => sep ++ n)).flatten := by
  intro l
  induction l with
  | nil => intro a; simp [List.intercalate]
  | cons b l ih =>
    intro a
    rw [intercalate_cons_cons, ih b]
    simp only [List.map_cons, List.flatten_cons, List.append_assoc]

theorem emit_to_string_out (r : ScanResult) (out : Str) :
    emit_to_string r out = out ++ emit_to_string r [] := by
  rw [emit_to_string_eq r out, emit_to_string_eq r []]
  rfl

theorem emit_from_string_out (r : ScanResult) (out : Str) :
    emit_from_string r out = out ++ emit_from_string r [] := by
  rw [emit_from_string_eq r out, emit_from_string_eq r []]
  rfl

theorem emit_from_integer_out (r : ScanResult) (out : Str) :
    emit_from_integer r out = out ++ emit_from_integer r [] := by
  rw [emit_from_integer_eq r out, emit_from_integer_eq r []]
  rfl

/-- Source lines 124-177: the whole output, for a non-empty namespace path. -/
theorem emit_eq (r : ScanResult) (hn : r.namespaces ≠ []) :
    emit r = .ok ("// clang-format off\n".toList
      ++ "// DO NOT EDIT: this file is auto-generated by caf-generate-enum-strings.\n".toList
      ++ "// Run the target update-enum-strings if this file is out of sync.\n".toList
      ++ "#include \"caf/config.hpp\"\n".toList
      ++ "#include \"caf/string_view.hpp\"\n\n".toList
      ++ "CAF_PUSH_DEPRECATED_WARNING\n\n".toList
      ++ "#include \"".toList ++ "/".toList.intercalate (r.namespaces ++ [r.enum_name])
      ++ ".hpp\"\n\n".toList
      ++ "#include <string>\n\n".toList
      ++ (r.namespaces.map openLine).flatten
      ++ ['\n']
      ++ emit_to_string r [] ++ emit_from_string r [] ++ emit_from_integer r []
      ++ (r.namespaces.reverse.map closeLine).flatten
      ++ "\nCAF_POP_WARNINGS\n".toList) := by
  have h1 : (fun (out : Str) (n : Str) => out ++ ['/'] ++ n)
      = (fun out n => out ++ (fun n => "/".toList ++ n) n) := by
    funext out n
    simp only [List.append_assoc]
    rfl
  have h2 : (fun (out : Str) (n : Str) => out ++ "namespace ".toList ++ n ++ " \x7b\n".toList)
      = (fun out n => out ++ openLine n) := by
    funext out n
    simp only [openLine, List.append_assoc]
  have h3 : (fun (out : Str) (n : Str) => out ++ "\x7d // namespace ".toList ++ n ++ ['\n'])
      = (fun out n => out ++ closeLine n) := by
    funext out n
    simp only [closeLine, List.append_assoc]
  unfold emit
  cases hns : r.namespaces with
  | nil => exact absurd hns hn
  | cons first others =>
    have hpath : "/".toList.intercalate (first :: others ++ [r.enum_name])
        = first ++ ((others.map (fun n => "/".toList ++ n)).flatten
          ++ (['/'] ++ r.enum_name)) := by
      rw [List.cons_append, intercalate_cons_eq]
      simp only [List.map_append, List.flatten_append, List.map_cons, List.map_nil,
        List.flatten_cons, List.flatten_nil, List.append_nil]
      rfl
    have hop : ∀ out : Str, out ++ "namespace ".toList ++ first ++ " \x7b\n".toList
        = out ++ openLine first := by
      intro out
      simp only [openLine, List.append_assoc]
    simp only []
    rw [h1, h2, h3, foldl_write, hop, foldl_write, foldl_write, emit_from_integer_out r _,
      emit_from_string_out r _, emit_to_string_out r _, hpath, List.map_cons,
      List.flatten_cons]
    simp only [List.append_assoc]

/-- C11. Integer-validate emission: the text of `from_integer` casts the input
to the enum type and switches on the cast value, with the default branch
returning false, then exactly one `case <prefix><member>` label per member, in
the order of the member list and with the labels of the `to_string` switch,
then the single body that assigns the cast value to `out` and returns true. -/
theorem C11_from_integer_emission (r : ScanResult) :
    ∃ (labels : List Str) (branches : List CaseBranch),
      emit_from_integer r [] =
        "bool from_integer(std::underlying_type_t<".toList ++ r.enum_name ++ "> in,\n".toList
          ++ "                  ".toList ++ r.enum_name ++ "& out) \x7b\n".toList
          ++ "  auto result = static_cast<".toList ++ r.enum_name ++ ">(in);\n".toList
          ++ "  switch(result) \x7b\n".toList
          ++ "    default:\n".toList
          ++ "      return false;\n".toList
          ++ (labels.map renderLabel).flatten
          ++ "      out = result;\n".toList
          ++ "      return true;\n".toList
          ++ "  \x7d;\n".toList
          ++ "\x7d\n\n".toList ∧
      labels = r.enum_values.map (fun m =>  case_label_prefix r ++ m) ∧
      labels.length = r.enum_values.length ∧
      emit_to_string r [] =
        "std::string to_string(".toList ++ r.enum_name ++ " x) \x7b\n".toList
          ++ "  switch(x) \x7b\n".toList
          ++ "    default:\n".toList
          ++ "      return \"???\";\n".toList
          ++ (branches.map CaseBranch.render).flatten
          ++ "  \x7d;\n".toList
          ++ "\x7d\n\n".toList ∧
      branches.map CaseBranch.label = labels ∧
      ∀ out, emit_from_integer r out = out ++ emit_from_integer r [] := by
  refine ⟨r.enum_values.map (fun m =>  case_label_prefix r ++ m),
    r.enum_values.map (fun m => CaseBranch.mk (qualified r m) m), ?_, rfl, by simp, ?_, ?_, ?_⟩
  · rw [emit_from_integer_eq]
    simp only [case_label_prefix_append, List.nil_append]
  · rw [emit_to_string_eq]
    rfl
  · simp [case_label_prefix_append]
  · intro out
    rw [emit_from_integer_eq r out, emit_from_integer_eq r []]
    rfl

/-- C12. Namespace nesting: for a scan result whose namespace path has depth
`K`, the output is the file header, then exactly `K` opening lines
`namespace <segment> {`, one per segment from the outermost to the innermost,
then the three functions, then exactly `K` closing lines
`} // namespace <segment>`, one per segment in the reverse order, then the
footer. -/
theorem C12_namespace_nesting (input : List Str) (r : ScanResult) (h : scan input = .ok r) :
    ∃ opening closing : List Str,
      main input = .ok ("// clang-format off\n".toList
        ++ "// DO NOT EDIT: this file is auto-generated by caf-generate-enum-strings.\n".toList
        ++ "// Run the target update-enum-strings if this file is out of sync.\n".toList
        ++ "#include \"caf/config.hpp\"\n".toList
        ++ "#include \"caf/string_view.hpp\"\n\n".toList
        ++ "CAF_PUSH_DEPRECATED_WARNING\n\n".toList
        ++ "#include \"".toList ++ "/".toList.intercalate (r.namespaces ++ [r.enum_name])
        ++ ".hpp\"\n\n".toList
        ++ "#include <string>\n\n".toList
        ++ opening.flatten
        ++ ['\n']
        ++ emit_to_string r [] ++ emit_from_string r [] ++ emit_from_integer r []
        ++ closing.flatten
        ++ "\nCAF_POP_WARNINGS\n".toList) ∧
      opening = r.namespaces.map (fun n => "namespace ".toList ++ n ++ " \x7b\n".toList) ∧
      closing = r.namespaces.reverse.map
        (fun n => "\x7d // namespace ".toList ++ n ++ "\n".toList) ∧
      opening.length = r.namespaces.length ∧ closing.length = r.namespaces.length := by
  obtain ⟨_, _, _, hn, _⟩ := scan_ok_inv input r h
  have hm : main input = emit r := by simp only [main, h]
  exact ⟨r.namespaces.map openLine, r.namespaces.reverse.map closeLine,
    hm.trans (emit_eq r hn), rfl, rfl, by simp, by simp⟩

/-- C12 on an enum in the namespace `caf::io::basp`. -/
theorem C12_namespace_nesting_witness :
    ∃ opening closing : List Str,
      opening = ["namespace caf \x7b\n".toList, "namespace io \x7b\n".toList,
        "namespace basp \x7b\n".toList] ∧
      closing = ["\x7d // namespace basp\n".toList, "\x7d // namespace io\n".toList,
        "\x7d // namespace caf\n".toList] ∧
      opening.length = 3 ∧ closing.length = 3 := by
  obtain ⟨opening, closing, _, ho, hc, h1, h2⟩ := C12_namespace_nesting
    ["namespace caf::io::basp \x7b".toList, "enum class op \x7b".toList, "read,".toList,
      "\x7d;".toList]
    ⟨["caf".toList, "io".toList, "basp".toList], "op".toList, true, ["read".toList]⟩
    (by decide)
  exact ⟨opening, closing, ho, hc, h1, h2⟩

/-- C13. Enum-class qualification: every `case` label of `to_string` and of
`from_integer`, and every constant assigned in `from_string`, is
`EnumName::Member` when `is_enum_class` is true and the bare `Member` when it
is false. -/
theorem C13_enum_class_qualification (r : ScanResult) :
    emit_to_string r [] =
      "std::string to_string(".toList ++ r.enum_name ++ " x) \x7b\n".toList
        ++ "  switch(x) \x7b\n".toList
        ++ "    default:\n".toList
        ++ "      return \"???\";\n".toList
        ++ ((r.enum_values.map (fun m => CaseBranch.mk
            (if r.is_enum_class then r.enum_name ++ "::".toList ++ m else m) m)).map
            CaseBranch.render).flatten
        ++ "  \x7d;\n".toList
        ++ "\x7d\n\n".toList ∧
    emit_from_string r [] =
      "bool from_string(string_view in, ".toList ++ r.enum_name ++ "& out) \x7b\n  ".toList
        ++ renderChain (r.enum_values.map (fun m => IfTest.mk m
            (if r.is_enum_class then r.enum_name ++ "::".toList ++ m else m)))
        ++ "\x7d\n\n".toList ∧
    emit_from_integer r [] =
      "bool from_integer(std::underlying_type_t<".toList ++ r.enum_name ++ "> in,\n".toList
        ++ "                  ".toList ++ r.enum_name ++ "& out) \x7b\n".toList
        ++ "  auto result = static_cast<".toList ++ r.enum_name ++ ">(in);\n".toList
        ++ "  switch(result) \x7b\n".toList
        ++ "    default:\n".toList
        ++ "      return false;\n".toList
        ++ ((r.enum_values.map
            (fun m => if r.is_enum_class then r.enum_name ++ "::".toList ++ m else m)).map
            renderLabel).flatten
        ++ "      out = result;\n".toList
        ++ "      return true;\n".toList
        ++ "  \x7d;\n".toList
        ++ "\x7d\n\n".toList := by
  refine ⟨?_, ?_, ?_⟩
  · rw [emit_to_string_eq]
    rfl
  · rw [emit_from_string_eq]
    rfl
  · rw [emit_from_integer_eq]
    rfl

/-- C14. Include path: for a scan result with the namespace path
`[s1, ..., sK]` and the enum name `E`, the output has, right after the fixed
header, the line `#include "s1/s2/.../sK/E.hpp"`: the segments followed by the
enum name, joined with `/`, with the suffix `.hpp`. -/
theorem C14_include_path (input : List Str) (r : ScanResult) (h : scan input = .ok r) :
    ∃ before after : Str,
      main input = .ok (before
        ++ "#include \"".toList ++ "/".toList.intercalate (r.namespaces ++ [r.enum_name])
        ++ ".hpp\"\n\n".toList ++ after) ∧
      before = "// clang-format off\n".toList
        ++ "// DO NOT EDIT: this file is auto-generated by caf-generate-enum-strings.\n".toList
        ++ "// Run the target update-enum-strings if this file is out of sync.\n".toList
        ++ "#include \"caf/config.hpp\"\n".toList
        ++ "#include \"caf/string_view.hpp\"\n\n".toList
        ++ "CAF_PUSH_DEPRECATED_WARNING\n\n".toList ∧
      after = "#include <string>\n\n".toList
        ++ (r.namespaces.map openLine).flatten
        ++ ['\n']
        ++ emit_to_string r [] ++ emit_from_string r [] ++ emit_from_integer r []
        ++ (r.namespaces.reverse.map closeLine).flatten
        ++ "\nCAF_POP_WARNINGS\n".toList := by
  obtain ⟨_, _, _, hn, _⟩ := scan_ok_inv input r h
  have hm : main input = emit r := by simp only [main, h]
  refine ⟨_, _, ?_, rfl, rfl⟩
  rw [hm, emit_eq r hn]
  simp only [List.append_assoc]

/-- C14 on the enum `color` of the namespace `caf::detail`. -/
theorem C14_include_path_witness :
    ∃ before after : Str,
      main ["namespace caf::detail \x7b".toList, "enum color \x7b".toList, "\x7d;".toList]
        = .ok (before ++ "#include \"caf/detail/color.hpp\"\n\n".toList ++ after) ∧
      before.length = 248 := by
  obtain ⟨before, after, h, hb, _⟩ := C14_include_path
    ["namespace caf::detail \x7b".toList, "enum color \x7b".toList, "\x7d;".toList]
    ⟨["caf".toList, "detail".toList], "color".toList, false, []⟩ (by decide)
  refine ⟨before, after, ?_, ?_⟩
  · rw [h]
    simp only [List.append_assoc]
    rfl
  · rw [hb]
    rfl

/-! ## Lines after the closing line -/

/-- The first loop does not look past the enum line. -/
theorem locateEnum_extend (M : List Str) :
    ∀ (L namespaces : List Str) (h : Header), locateEnum L namespaces = .ok h →
      locateEnum (L ++ M) namespaces
        = .ok ⟨h.namespaces, h.enum_name, h.is_enum_class, h.rest ++ M⟩ := by
  intro L
  induction L with
  | nil =>
    intro namespaces h hloc
    exact Except.noConfusion hloc
  | cons raw rest ih =>
    intro namespaces h hloc
    by_cases he : "enum ".toList <+: trim raw
    · rw [locateEnum_enum raw rest namespaces he] at hloc
      simp only [Except.ok.injEq] at hloc
      subst hloc
      rw [List.cons_append, locateEnum_enum raw (rest ++ M) namespaces he]
    · by_cases hn : "namespace ".toList <+: trim raw
      · obtain ⟨segs, _, hsegs⟩ := namespaceLine_ok (trim raw) namespaces hn
        rw [locateEnum_namespace raw rest namespaces segs hn hsegs] at hloc
        rw [List.cons_append, locateEnum_namespace raw (rest ++ M) namespaces segs hn hsegs]
        exact ih _ h hloc
      · rw [locateEnum_other raw rest namespaces he hn] at hloc
        rw [List.cons_append, locateEnum_other raw (rest ++ M) namespaces he hn]
        exact ih _ h hloc

/-- The second loop does not look past the closing line. -/
theorem readValues_extend (L M acc vals : List Str) (h : readValues L acc = .ok vals) :
    readValues (L ++ M) acc = .ok vals := by
  rcases readValues_cases L acc with ⟨herr, _⟩ | ⟨body, closing, post, rfl, hb, hcl, hok⟩
  · rw [herr] at h
    exact Except.noConfusion h
  · rw [hok] at h
    rw [List.append_assoc, List.cons_append, readValues_append body hb,
      readValues_close closing _ _ hcl]
    exact h

/-- C15. Only the first enum is processed: when the scan of the lines `L`
succeeds with the result `r`, the scan of `L` followed by any lines `M`
succeeds with the same result, and `main` writes the same output. -/
theorem C15_first_enum_only (L M : List Str) (r : ScanResult) (h : scan L = .ok r) :
    scan (L ++ M) = .ok r ∧ main (L ++ M) = main L := by
  obtain ⟨hd, hloc, hns, hne, hname, hnn, hcls, hrv⟩ := scan_ok_inv L r h
  have hscan : scan (L ++ M) = .ok r := by
    rw [scan_of_locateEnum _ _ (locateEnum_extend M L [] hd hloc)]
    have h1 : hd.namespaces.isEmpty = false := by
      rw [hns]
      cases hx : r.namespaces <;> simp [hx] at hne ⊢
    have h2 : hd.enum_name.isEmpty = false := by
      rw [hname]
      cases hx : r.enum_name <;> simp [hx] at hnn ⊢
    simp only [h1, h2, readValues_extend hd.rest M [] r.enum_values hrv]
    simp [hns, hname, hcls]
  refine ⟨hscan, ?_⟩
  simp only [main, hscan, h]

/-- C15 on a file with a second enum after the first. -/
theorem C15_first_enum_only_witness :
    scan (["namespace caf \x7b".toList, "enum color \x7b".toList, "red,".toList,
        "\x7d;".toList] ++ ["enum shape \x7b".toList, "round".toList, "\x7d;".toList])
      = .ok ⟨["caf".toList], "color".toList, false, ["red".toList]⟩ ∧
    main (["namespace caf \x7b".toList, "enum color \x7b".toList, "red,".toList,
        "\x7d;".toList] ++ ["enum shape \x7b".toList, "round".toList, "\x7d;".toList])
      = main ["namespace caf \x7b".toList, "enum color \x7b".toList, "red,".toList,
        "\x7d;".toList] :=
  C15_first_enum_only _ _ _ (by decide)

theorem infix_append_right {l x : Str} (y : Str) (h : l <:+: x) : l <:+: x ++ y :=
  h.trans (List.prefix_append x y).isInfix

/-- When the scan succeeds `main` writes the text of the emitter, and the
texts of the three functions are parts of it. -/
theorem main_of_scan_ok (input : List Str) (r : ScanResult) (h : scan input = .ok r) :
    ∃ text, main input = .ok text ∧ emit_to_string r [] <:+: text ∧
      emit_from_string r [] <:+: text ∧ emit_from_integer r [] <:+: text := by
  obtain ⟨_, _, _, hne, _⟩ := scan_ok_inv input r h
  have hm : main input = emit r := by simp only [main, h]
  refine ⟨_, hm.trans (emit_eq r hne), ?_, ?_, ?_⟩
  · exact infix_append_right _ (infix_append_right _ (infix_append_right _
      (infix_append_right _ (List.suffix_append _ _).isInfix)))
  · exact infix_append_right _ (infix_append_right _ (infix_append_right _
      (List.suffix_append _ _).isInfix))
  · exact infix_append_right _ (infix_append_right _ (List.suffix_append _ _).isInfix)

/-- C16, counterexample. The input of the scenario, given as it is written, is
one line: it starts with `namespace `, so the first loop takes it for a
namespace line, and the end of the input comes before any enum line. -/
theorem C16_scenario_counterexample :
    getlines "namespace a \x7b namespace b \x7b enum class Color \x7b Red, Green, Blue \x7d; \x7d \x7d".toList
      = ["namespace a \x7b namespace b \x7b enum class Color \x7b Red, Green, Blue \x7d; \x7d \x7d".toList] ∧
    scan (getlines
      "namespace a \x7b namespace b \x7b enum class Color \x7b Red, Green, Blue \x7d; \x7d \x7d".toList)
      = .error .headerNotFound ∧
    main (getlines
      "namespace a \x7b namespace b \x7b enum class Color \x7b Red, Green, Blue \x7d; \x7d \x7d".toList)
      = .error .headerNotFound := by
  decide

/-- C16, amended. Scenario: for the declaration of the scenario laid out one
item per line (`namespace a {`, `namespace b {`, `enum class Color {`, `Red,`,
`Green,`, `Blue`, `};`, `}`, `}`), the scan succeeds with the namespace path
`["a", "b"]`, the enum `Color`, `is_enum_class` true and the members `Red`,
`Green`, `Blue`; the output holds a `to_string` with the branch
`case Color::Green:` returning `"Green"` and a `from_string` whose chain has the
test for `"Blue"` assigning `Color::Blue` and no test for `"Purple"`, on which
it fails. -/
theorem C16_scenario_lines :
    getlines ("namespace a \x7b\nnamespace b \x7b\nenum class Color \x7b\n".toList
        ++ "Red,\nGreen,\nBlue\n\x7d;\n\x7d\n\x7d\n".toList)
      = ["namespace a \x7b".toList, "namespace b \x7b".toList, "enum class Color \x7b".toList,
          "Red,".toList, "Green,".toList, "Blue".toList, "\x7d;".toList, "\x7d".toList,
          "\x7d".toList] ∧
    scan (getlines ("namespace a \x7b\nnamespace b \x7b\nenum class Color \x7b\n".toList
        ++ "Red,\nGreen,\nBlue\n\x7d;\n\x7d\n\x7d\n".toList))
      = .ok ⟨["a".toList, "b".toList], "Color".toList, true,
          ["Red".toList, "Green".toList, "Blue".toList]⟩ ∧
    (∃ text, main (getlines
          ("namespace a \x7b\nnamespace b \x7b\nenum class Color \x7b\n".toList
            ++ "Red,\nGreen,\nBlue\n\x7d;\n\x7d\n\x7d\n".toList)) = .ok text ∧
      emit_to_string ⟨["a".toList, "b".toList], "Color".toList, true,
        ["Red".toList, "Green".toList, "Blue".toList]⟩ [] <:+: text ∧
      emit_from_string ⟨["a".toList, "b".toList], "Color".toList, true,
        ["Red".toList, "Green".toList, "Blue".toList]⟩ [] <:+: text) ∧
    emit_to_string ⟨["a".toList, "b".toList], "Color".toList, true,
        ["Red".toList, "Green".toList, "Blue".toList]⟩ []
      = "std::string to_string(Color x) \x7b\n  switch(x) \x7b\n".toList
        ++ "    default:\n      return \"???\";\n".toList
        ++ CaseBranch.render ⟨"Color::Red".toList, "Red".toList⟩
        ++ CaseBranch.render ⟨"Color::Green".toList, "Green".toList⟩
        ++ CaseBranch.render ⟨"Color::Blue".toList, "Blue".toList⟩
        ++ "  \x7d;\n\x7d\n\n".toList ∧
    emit_from_string ⟨["a".toList, "b".toList], "Color".toList, true,
        ["Red".toList, "Green".toList, "Blue".toList]⟩ []
      = "bool from_string(string_view in, Color& out) \x7b\n  ".toList
        ++ renderChain [⟨"Red".toList, "Color::Red".toList⟩,
            ⟨"Green".toList, "Color::Green".toList⟩, ⟨"Blue".toList, "Color::Blue".toList⟩]
        ++ "\x7d\n\n".toList ∧
    evalChain [⟨"Red".toList, "Color::Red".toList⟩,
        ⟨"Green".toList, "Color::Green".toList⟩, ⟨"Blue".toList, "Color::Blue".toList⟩]
        "Blue".toList = some "Color::Blue".toList ∧
    evalChain [⟨"Red".toList, "Color::Red".toList⟩,
        ⟨"Green".toList, "Color::Green".toList⟩, ⟨"Blue".toList, "Color::Blue".toList⟩]
        "Purple".toList = none ∧
    ∀ t ∈ [IfTest.mk "Red".toList "Color::Red".toList,
        ⟨"Green".toList, "Color::Green".toList⟩, ⟨"Blue".toList, "Color::Blue".toList⟩],
      t.literal ≠ "Purple".toList := by
  have hscan : scan (getlines
      ("namespace a \x7b\nnamespace b \x7b\nenum class Color \x7b\n".toList
        ++ "Red,\nGreen,\nBlue\n\x7d;\n\x7d\n\x7d\n".toList))
      = .ok ⟨["a".toList, "b".toList], "Color".toList, true,
          ["Red".toList, "Green".toList, "Blue".toList]⟩ := by decide
  obtain ⟨text, h1, h2, h3, _⟩ := main_of_scan_ok _ _ hscan
  refine ⟨by decide, hscan, ⟨text, h1, h2, h3⟩, ?_, ?_, by decide, by decide, by decide⟩
  · rw [emit_to_string_eq]
    rfl
  · rw [emit_from_string_eq]
    rfl

/-! ## The general behaviour of `find` and `split` -/

theorem findFrom_none (sep : Str) :
    ∀ (s : Str) (i : Nat), findFrom sep s i = none → ¬ sep <:+: s := by
  intro s
  induction s with
  | nil =>
    intro i h hinf
    have : sep = [] := List.infix_nil.1 hinf
    subst this
    simp [findFrom] at h
  | cons c cs ih =>
    intro i h hinf
    unfold findFrom at h
    split at h
    · exact Option.noConfusion h
    · rename_i hp
      rcases List.infix_cons_iff.1 hinf with hpre | hin
      · exact hp (List.isPrefixOf_iff_prefix.2 hpre)
      · exact ih (i + 1) h hin

theorem findFrom_some (sep : Str) (hsep : sep ≠ []) :
    ∀ (s : Str) (i j : Nat), findFrom sep s i = some j →
      ∃ a b, s = a ++ sep ++ b ∧ j = i + a.length ∧ ¬ sep <:+: a := by
  intro s
  induction s with
  | nil =>
    intro i j h
    unfold findFrom at h
    split at h
    · rename_i hp
      cases sep with
      | nil => exact absurd rfl hsep
      | cons x t => simp at hp
    · exact Option.noConfusion h
  | cons c cs ih =>
    intro i j h
    unfold findFrom at h
    split at h
    · rename_i hp
      obtain ⟨b, hb⟩ := List.isPrefixOf_iff_prefix.1 hp
      simp only [Option.some.injEq] at h
      refine ⟨[], b, by simpa using hb.symm, by simpa using h.symm, ?_⟩
      intro hinf
      exact hsep (List.infix_nil.1 hinf)
    · rename_i hp
      obtain ⟨a, b, hs, hj, hna⟩ := ih (i + 1) j h
      refine ⟨c :: a, b, by rw [hs]; rfl, by simp only [List.length_cons]; omega, ?_⟩
      intro hinf
      rcases List.infix_cons_iff.1 hinf with hpre | hin
      · apply hp
        rw [List.isPrefixOf_iff_prefix, hs]
        have : c :: a <+: c :: (a ++ sep ++ b) := by
          rw [List.append_assoc]
          exact List.prefix_append (c :: a) (sep ++ b)
        exact hpre.trans this
      · exact hna hin

/-- The loop of `split` on the rest `s` of the string, from `previous` on:
with a non-empty separator and enough iterations it appends segments that are
free of the separator and give back `s` when joined by it. -/
theorem splitLoop_spec (sep : Str) (hsep : sep ≠ []) :
    ∀ (fuel : Nat) (s pre : Str) (dest : List Str), s.length < fuel →
      ∃ segs, splitLoop (pre ++ s) sep fuel pre.length (find (pre ++ s) sep pre.length) dest
          = .ok (dest ++ segs) ∧
        segs ≠ [] ∧ (∀ g ∈ segs, ¬ sep <:+: g) ∧ sep.intercalate segs = s ∧
        (¬ sep <:+: s → segs = [s]) := by
  have hlen : 0 < sep.length := List.length_pos.2 hsep
  intro fuel
  induction fuel with
  | zero => intro s pre dest h; omega
  | succ fuel ih =>
    intro s pre dest hfuel
    rw [find_append_left]
    cases hf : findFrom sep s pre.length with
    | none =>
      refine ⟨[s], ?_, by simp, ?_, by simp [List.intercalate], fun _ => rfl⟩
      · simp [splitLoop]
      · intro g hg
        rw [List.mem_singleton.1 hg]
        exact findFrom_none sep s _ hf
    | some j =>
      obtain ⟨a, b, hs, hj, hna⟩ := findFrom_some sep hsep s _ j hf
      subst hs hj
      have hsub : substr (pre ++ (a ++ sep ++ b)) pre.length (pre.length + a.length - pre.length)
          = .ok a := by
        simp [substr]
      have hb : b.length < fuel := by
        simp only [List.length_append] at hfuel
        omega
      obtain ⟨segs, h1, h2, h3, h4, _⟩ := ih b (pre ++ a ++ sep) (dest ++ [a]) hb
      have hpre : pre.length + a.length + sep.length = (pre ++ a ++ sep).length := by
        simp only [List.length_append]
      have hstr : pre ++ (a ++ sep ++ b) = (pre ++ a ++ sep) ++ b := by
        simp only [List.append_assoc]
      refine ⟨a :: segs, ?_, by simp, ?_, ?_, ?_⟩
      · simp only [splitLoop, hsub]
        rw [hpre, hstr, h1]
        simp
      · intro g hg
        rcases List.mem_cons.1 hg with rfl | hg
        · exact hna
        · exact h3 g hg
      · cases segs with
        | nil => exact absurd rfl h2
        | cons x l => rw [intercalate_cons_cons, h4]
      · intro hno
        exact absurd (List.infix_append a sep b) hno

theorem split_spec (s sep : Str) (hsep : sep ≠ []) (dest : List Str) :
    ∃ segs, split s sep dest = .ok (dest ++ segs) ∧
      segs ≠ [] ∧ (∀ g ∈ segs, ¬ sep <:+: g) ∧ sep.intercalate segs = s ∧
      (¬ sep <:+: s → segs = [s]) := by
  have h := splitLoop_spec sep hsep (s.length + 1) s [] dest (Nat.lt_succ_self _)
  simpa [split] using h

/-- C20. Split round trip: for every string `s` and every non-empty separator
`sep`, `split(s, sep, dest)` ends and appends at least one segment to `dest`,
none of the appended segments contains `sep`, and the appended segments joined
by `sep` give back exactly `s`; a string without the separator yields the
single segment `s`, and the empty string yields one empty segment. -/
theorem C20_split_round_trip (s sep : Str) (dest : List Str) (hsep : sep ≠ []) :
    ∃ segs, split s sep dest = .ok (dest ++ segs) ∧
      1 ≤ segs.length ∧ (∀ g ∈ segs, ¬ sep <:+: g) ∧ sep.intercalate segs = s ∧
      (¬ sep <:+: s → segs = [s]) ∧ (s = [] → segs = [[]]) := by
  obtain ⟨segs, h1, h2, h3, h4, h5⟩ := split_spec s sep hsep dest
  refine ⟨segs, h1, List.length_pos.2 h2, h3, h4, h5, ?_⟩
  intro hs
  subst hs
  apply h5
  intro hinf
  exact hsep (List.infix_nil.1 hinf)

/-- C20 on `a::b:::c::` split on `::`, and on the empty string. -/
theorem C20_split_round_trip_witness :
    (∃ segs, split "a::b:::c::".toList "::".toList ["x".toList] = .ok (["x".toList] ++ segs) ∧
      1 ≤ segs.length ∧ (∀ g ∈ segs, ¬ "::".toList <:+: g) ∧
      "::".toList.intercalate segs = "a::b:::c::".toList ∧
      (¬ "::".toList <:+: "a::b:::c::".toList → segs = ["a::b:::c::".toList]) ∧
      ("a::b:::c::".toList = [] → segs = [[]])) ∧
    split "a::b:::c::".toList "::".toList ["x".toList]
      = .ok ["x".toList, "a".toList, "b".toList, ":c".toList, []] ∧
    split [] "::".toList [] = .ok [[]] :=
  ⟨C20_split_round_trip "a::b:::c::".toList "::".toList ["x".toList] (by decide),
    by decide, by decide⟩

/-! ## What a namespace line appends -/

/-- A trimmed string neither starts nor ends with white space. -/
theorem trim_ends (s : Str) :
    (∀ c ∈ (trim s).head?, isspace c = false) ∧ (∀ c ∈ (trim s).getLast?, isspace c = false) := by
  constructor
  · intro c hc
    rw [head?_trim] at hc
    unfold firstNonSpace at hc
    cases hd : s.dropWhile isspace with
    | nil => simp [hd] at hc
    | cons a t =>
      have ha : isspace a = false := by
        have := List.dropWhile_get_zero_not isspace s (by simp [hd])
        simpa [hd] using this
      simp only [hd, List.head?_cons, Option.mem_def, Option.some.injEq] at hc
      subst hc
      exact ha
  · intro c hc
    unfold trim at hc
    by_cases hne : (s.dropWhile isspace).rdropWhile isspace = []
    · rw [hne] at hc
      simp at hc
    · have := List.rdropWhile_last_not isspace (s.dropWhile isspace) hne
      rw [List.getLast?_eq_getLast _ hne] at hc
      simp only [Option.mem_def, Option.some.injEq] at hc
      subst hc
      simpa using this

theorem trim_part_of_line (s : Str) : trim s <:+: s :=
  (List.rdropWhile_prefix isspace _).isInfix.trans (List.dropWhile_suffix isspace).isInfix

theorem intercalate_getLast (sep : Str) :
    ∀ (segs : List Str), ∀ last ∈ segs.getLast?, ∃ init, sep.intercalate segs = init ++ last := by
  intro segs
  induction segs with
  | nil => intro last h; simp at h
  | cons a l ih =>
    intro last h
    cases l with
    | nil =>
      simp only [List.getLast?_singleton, Option.mem_def, Option.some.injEq] at h
      subst h
      exact ⟨[], by simp [List.intercalate]⟩
    | cons b l =>
      have h' : last ∈ (b :: l).getLast? := by
        rw [List.getLast?_cons_cons] at h
        exact h
      obtain ⟨init, hi⟩ := ih last h'
      exact ⟨a ++ sep ++ init, by rw [intercalate_cons_cons, hi]; simp only [List.append_assoc]⟩

/-- Source lines 81-85 split the text between the keyword and a final opening
brace, trimmed as a whole. -/
theorem namespaceLine_spec (line : Str) (namespaces : List Str)
    (h : "namespace ".toList <+: line) :
    ∃ segs, namespaceLine line namespaces = .ok (namespaces ++ segs) ∧ segs ≠ [] ∧
      (∀ g ∈ segs, ¬ "::".toList <:+: g) ∧
      "::".toList.intercalate segs <:+: line ∧
      (∀ c ∈ ("::".toList.intercalate segs).head?, isspace c = false) ∧
      (∀ c ∈ ("::".toList.intercalate segs).getLast?, isspace c = false) := by
  obtain ⟨t, rfl⟩ := h
  obtain ⟨d, hd⟩ : ∃ d, ("namespace ".toList ++ t).getLast? = some d :=
    ⟨_, List.getLast?_eq_getLast _ (by simp)⟩
  simp only [namespaceLine, hd]
  obtain ⟨segs, h1, h2, h3, h4, _⟩ := split_spec
    (trim ((if d = '\x7b' then ("namespace ".toList ++ t).dropLast
      else "namespace ".toList ++ t).dropWhile (fun x => x != ' ')))
    "::".toList (by decide) namespaces
  refine ⟨segs, h1, h2, h3, ?_, ?_, ?_⟩
  · rw [h4]
    refine (trim_part_of_line _).trans ((List.dropWhile_suffix _).isInfix.trans ?_)
    split
    · exact (List.dropLast_prefix _).isInfix
    · exact List.infix_refl _
  · rw [h4]
    exact (trim_ends _).1
  · rw [h4]
    exact (trim_ends _).2

/-- Source lines 81-85 on a line `namespace ` followed by `t`: what is split
is `t` without a final opening brace, trimmed as a whole. -/
theorem namespaceLine_text (t : Str) (namespaces : List Str) :
    namespaceLine ("namespace ".toList ++ t) namespaces
      = split (trim (if t.getLast? = some '\x7b' then t.dropLast else t)) "::".toList
          namespaces := by
  have hdrop : ∀ X : Str, ("namespace ".toList ++ X).dropWhile (fun x => x != ' ')
      = ' ' :: X := fun X => rfl
  by_cases ht : t = []
  · subst ht
    rfl
  · obtain ⟨d, hd⟩ : ∃ d, t.getLast? = some d := ⟨_, List.getLast?_eq_getLast _ ht⟩
    have hl : ("namespace ".toList ++ t).getLast? = some d := by
      rw [List.getLast?_append_of_ne_nil _ ht, hd]
    simp only [namespaceLine, hl, hd, Option.some.injEq]
    by_cases hb : d = '\x7b'
    · simp only [hb, if_true]
      rw [List.dropLast_append_of_ne_nil _ ht, hdrop, trim_cons_space _ (by decide)]
    · simp only [hb, if_false]
      rw [hdrop, trim_cons_space _ (by decide)]

/-- C17, counterexample. On `namespace a :: b {` the appended segments are
`a` followed by a blank and a blank followed by `b`. -/
theorem C17_segments_trimmed_counterexample :
    "namespace ".toList <+: trim "namespace a :: b \x7b".toList ∧
    namespaceLine (trim "namespace a :: b \x7b".toList) []
      = .ok ["a ".toList, " b".toList] ∧
    locateEnum ["namespace a :: b \x7b".toList, "enum x".toList] []
      = .ok ⟨["a ".toList, " b".toList], "x".toList, false, []⟩ ∧
    trim "a ".toList ≠ "a ".toList ∧ trim " b".toList ≠ " b".toList := by
  decide

/-- C17, amended. On a line whose trimmed content is `namespace ` followed by
a text `t`, the scanner takes `t` without a final opening brace, trims it once,
as a whole, and splits it on `::`: it appends at least one segment, the
segments are free of `::` and, joined by `::`, are exactly that trimmed text,
which neither starts nor ends with white space, so the first segment has no
leading and the last no trailing white space. White space next to a `::` is
part of the trimmed text and stays in the segments. -/
theorem C17_segments_of_trimmed_text (raw t : Str) (rest namespaces : List Str)
    (h : trim raw = "namespace ".toList ++ t) :
    ∃ segs, namespaceLine (trim raw) namespaces = .ok (namespaces ++ segs) ∧
      locateEnum (raw :: rest) namespaces = locateEnum rest (namespaces ++ segs) ∧
      split (trim (if t.getLast? = some '\x7b' then t.dropLast else t)) "::".toList namespaces
        = .ok (namespaces ++ segs) ∧
      "::".toList.intercalate segs
        = trim (if t.getLast? = some '\x7b' then t.dropLast else t) ∧
      segs ≠ [] ∧ (∀ g ∈ segs, ¬ "::".toList <:+: g) ∧
      (∀ c ∈ ("::".toList.intercalate segs).head?, isspace c = false) ∧
      (∀ c ∈ ("::".toList.intercalate segs).getLast?, isspace c = false) ∧
      (∀ first ∈ segs.head?, ∀ c ∈ first.head?, isspace c = false) ∧
      (∀ last ∈ segs.getLast?, ∀ c ∈ last.getLast?, isspace c = false) := by
  obtain ⟨segs, h1, h2, h3, h4, _⟩ := split_spec
    (trim (if t.getLast? = some '\x7b' then t.dropLast else t)) "::".toList (by decide)
    namespaces
  have hline : namespaceLine (trim raw) namespaces = .ok (namespaces ++ segs) := by
    rw [h, namespaceLine_text, h1]
  have hp : "namespace ".toList <+: trim raw := by
    rw [h]
    exact List.prefix_append _ _
  have h5 : ∀ c ∈ ("::".toList.intercalate segs).head?, isspace c = false := by
    rw [h4]
    exact (trim_ends _).1
  have h6 : ∀ c ∈ ("::".toList.intercalate segs).getLast?, isspace c = false := by
    rw [h4]
    exact (trim_ends _).2
  refine ⟨segs, hline, locateEnum_namespace raw rest namespaces segs hp hline, h1, h4, h2, h3,
    h5, h6, ?_, ?_⟩
  · intro first hf c hc
    cases segs with
    | nil => simp at hf
    | cons a l =>
      simp only [List.head?_cons, Option.mem_def, Option.some.injEq] at hf
      subst hf
      apply h5 c
      rw [intercalate_cons_eq]
      cases a with
      | nil => simp at hc
      | cons x t =>
        simp only [List.head?_cons, Option.mem_def, Option.some.injEq] at hc
        subst hc
        rfl
  · intro last hl c hc
    obtain ⟨init, hi⟩ := intercalate_getLast "::".toList segs last hl
    apply h6 c
    rw [hi]
    cases hlast : last with
    | nil => rw [hlast] at hc; simp at hc
    | cons x t =>
      rw [List.getLast?_append_of_ne_nil _ (List.cons_ne_nil _ _), ← hlast]
      exact hc

/-- C17, amended, on `namespace a :: b {`: the segments joined by `::` are
`a :: b`, the text after the keyword without the brace and the blank before
it. -/
theorem C17_segments_of_trimmed_text_witness :
    ∃ segs, namespaceLine (trim "  namespace a :: b \x7b".toList) ["std".toList]
        = .ok (["std".toList] ++ segs) ∧
      locateEnum ("  namespace a :: b \x7b".toList :: ["enum x".toList]) ["std".toList]
        = locateEnum ["enum x".toList] (["std".toList] ++ segs) ∧
      split (trim (if "a :: b \x7b".toList.getLast? = some '\x7b'
          then "a :: b \x7b".toList.dropLast else "a :: b \x7b".toList)) "::".toList
          ["std".toList] = .ok (["std".toList] ++ segs) ∧
      "::".toList.intercalate segs
        = trim (if "a :: b \x7b".toList.getLast? = some '\x7b'
            then "a :: b \x7b".toList.dropLast else "a :: b \x7b".toList) ∧
      segs ≠ [] ∧ (∀ g ∈ segs, ¬ "::".toList <:+: g) ∧
      (∀ c ∈ ("::".toList.intercalate segs).head?, isspace c = false) ∧
      (∀ c ∈ ("::".toList.intercalate segs).getLast?, isspace c = false) ∧
      (∀ first ∈ segs.head?, ∀ c ∈ first.head?, isspace c = false) ∧
      (∀ last ∈ segs.getLast?, ∀ c ∈ last.getLast?, isspace c = false) :=
  C17_segments_of_trimmed_text "  namespace a :: b \x7b".toList "a :: b \x7b".toList
    ["enum x".toList] ["std".toList] (by decide)

/-! ## The character filter and the guarded accesses -/

/-- C18, counterexample. On `Name = value,` the filter returns `Name`, while
removing every character that is not alphanumeric or underscore would give
`Namevalue`; on `a b` it returns `a`, not `ab`. -/
theorem C18_character_filter_counterexample :
    keep_alnum "Name = value,".toList = "Name".toList ∧
    "Name = value,".toList.filter (fun c => isalnum c || c == '_') = "Namevalue".toList ∧
    keep_alnum "a b".toList = "a".toList ∧
    "a b".toList.filter (fun c => isalnum c || c == '_') = "ab".toList ∧
    ¬ ∀ s : Str, keep_alnum s = s.filter (fun c => isalnum c || c == '_') := by
  refine ⟨by decide, by decide, by decide, by decide, ?_⟩
  intro h
  have := h "a b".toList
  revert this
  decide

/-- C18, amended. The filter `keep_alnum` returns the longest prefix of `s`
made of alphanumeric or underscore characters: `s` is the result followed by
a rest that is empty or starts with another character, and the whole rest is
removed. The result is `s` without its other characters exactly when no
alphanumeric or underscore character stands in that rest. -/
theorem C18_keep_alnum_prefix (s : Str) :
    ∃ rest, s = keep_alnum s ++ rest ∧
      (∀ c ∈ keep_alnum s, isalnum c = true ∨ c = '_') ∧
      (∀ c ∈ rest.head?, ¬ (isalnum c = true ∨ c = '_')) ∧
      (keep_alnum s = s.filter (fun c => isalnum c || c == '_') ↔
        ∀ c ∈ rest, ¬ (isalnum c = true ∨ c = '_')) := by
  have hw : ∀ c, (isalnum c = true ∨ c = '_') ↔ isWordChar c = true := by
    intro c
    simp [isWordChar]
  have hfun : (fun c => isalnum c || c == '_') = isWordChar := rfl
  refine ⟨s.dropWhile isWordChar, ?_, ?_, ?_, ?_⟩
  · rw [keep_alnum_eq, List.takeWhile_append_dropWhile]
  · intro c hc
    exact (hw c).2 (keep_alnum_word s c hc)
  · intro c hc
    rw [hw]
    cases hd : s.dropWhile isWordChar with
    | nil => simp [hd] at hc
    | cons a t =>
      have ha : ¬ isWordChar a = true := by
        have := List.dropWhile_get_zero_not isWordChar s (by simp [hd])
        simpa [hd] using this
      simp only [hd, List.head?_cons, Option.mem_def, Option.some.injEq] at hc
      subst hc
      exact ha
  · rw [hfun]
    have hsplit : s.filter isWordChar
        = keep_alnum s ++ (s.dropWhile isWordChar).filter isWordChar := by
      conv_lhs => rw [← List.takeWhile_append_dropWhile isWordChar (l := s)]
      rw [List.filter_append, keep_alnum_eq, List.filter_eq_self.2]
      intro a ha
      exact List.mem_takeWhile_imp ha
    rw [hsplit]
    constructor
    · intro h c hc
      have h0 : (s.dropWhile isWordChar).filter isWordChar = [] := by
        have := congrArg List.length h
        simp only [List.length_append] at this
        exact List.length_eq_zero.1 (by omega)
      rw [hw]
      exact List.filter_eq_nil_iff.1 h0 c hc
    · intro h
      have h0 : (s.dropWhile isWordChar).filter isWordChar = [] := by
        rw [List.filter_eq_nil_iff]
        intro c hc
        exact fun hcw => h c hc ((hw c).2 hcw)
      rw [h0, List.append_nil]

/-- The first loop fails only at the end of the input. -/
theorem locateEnum_error (lines namespaces : List Str) (e : Failure)
    (h : locateEnum lines namespaces = .error e) : e = .headerNotFound := by
  by_cases hex : ∃ x ∈ lines, "enum ".toList <+: trim x
  · obtain ⟨pre, hdr, post, rfl, hpre, hhdr⟩ := exists_first _ lines hex
    obtain ⟨segs, h1, _⟩ := locateEnum_append pre hpre (hdr :: post) namespaces
    rw [h1, locateEnum_enum hdr post _ hhdr] at h
    exact Except.noConfusion h
  · rw [locateEnum_none lines (fun x hx hc => hex ⟨x, hx, hc⟩)] at h
    simp only [Except.error.injEq] at h
    exact h.symm

/-- The second loop fails only at the end of the input. -/
theorem readValues_error (lines acc : List Str) (e : Failure)
    (h : readValues lines acc = .error e) : e = .truncatedBody := by
  rcases readValues_cases lines acc with ⟨herr, _⟩ | ⟨_, _, _, _, _, _, hok⟩
  · rw [herr] at h
    simp only [Except.error.injEq] at h
    exact h.symm
  · rw [hok] at h
    exact Except.noConfusion h

/-- C19. Guarded accesses: `line.back()` is reached only on a line that
starts with `namespace `, which has a last character; `line[0]` of the second
loop is reached only on a non-empty line, which has a first character;
`namespaces[0]` of the emitter is reached only after a scan that succeeded,
with a non-empty namespace path. On no input does a loop of the scanner, the
scanner or `main` end in the branch of an access to an empty container. -/
theorem C19_guarded_accesses :
    (∀ line : Str, "namespace ".toList <+: line → line.getLast? ≠ none) ∧
    (∀ line namespaces, starts_with line "namespace ".toList = true →
      namespaceLine line namespaces ≠ .error .uncheckedAccess) ∧
    (∀ line : Str, line.isEmpty = false → line.head? ≠ none) ∧
    (∀ lines namespaces, locateEnum lines namespaces ≠ .error .uncheckedAccess) ∧
    (∀ lines acc, readValues lines acc ≠ .error .uncheckedAccess) ∧
    (∀ input r, scan input = .ok r → r.namespaces.head? ≠ none ∧
      emit r ≠ .error .uncheckedAccess) ∧
    (∀ input, scan input ≠ .error .uncheckedAccess) ∧
    (∀ input, main input ≠ .error .uncheckedAccess) := by
  have hscan : ∀ input, scan input ≠ .error .uncheckedAccess := by
    intro input h
    cases hloc : locateEnum input [] with
    | error e =>
      have he := locateEnum_error input [] e hloc
      subst he
      simp [scan, hloc] at h
    | ok hd =>
      rw [scan_of_locateEnum input hd hloc] at h
      split at h
      · simp at h
      · split at h
        · simp at h
        · cases hrv : readValues hd.rest [] with
          | error e =>
            have he := readValues_error _ _ e hrv
            subst he
            simp [hrv] at h
          | ok vals => simp [hrv] at h
  refine ⟨?_, ?_, ?_, ?_, ?_, ?_, hscan, ?_⟩
  · rintro line ⟨t, rfl⟩ h
    simp at h
  · intro line namespaces hs h
    obtain ⟨segs, _, hok⟩ := namespaceLine_ok line namespaces ((starts_with_iff _ _).1 hs)
    rw [hok] at h
    exact Except.noConfusion h
  · intro line hl h
    cases line with
    | nil => simp at hl
    | cons c t => simp at h
  · intro lines namespaces h
    have := locateEnum_error lines namespaces _ h
    exact Failure.noConfusion this
  · intro lines acc h
    have := readValues_error lines acc _ h
    exact Failure.noConfusion this
  · intro input r h
    obtain ⟨_, _, _, hne, _⟩ := scan_ok_inv input r h
    obtain ⟨text, ht⟩ := emit_ok r hne
    refine ⟨?_, by rw [ht]; exact fun hc => Except.noConfusion hc⟩
    cases hn : r.namespaces with
    | nil => exact absurd hn hne
    | cons a l => simp
  · intro input h
    exact hscan input ((main_error_iff input _).1 h)

end EnumStrings
